import Mathlib

/-!
# glbinding `RingBuffer<T>`: single producer, many consumers

A shallow embedding of `source/glbinding/source/RingBuffer.hpp`.

* `uint64_t` values are natural numbers; every addition or subtraction of the
  source that can leave the 64-bit range is reduced with `u64`.
* `std::vector<T> m_buffer` is a `List T`; `m_buffer.at(i)` is `m_buffer[i]?`,
  where `none` stands for the `std::out_of_range` exception.
* `std::map<TailIdentifier, std::atomic<uint64_t>> m_tails` is an association
  list kept in key order (the iteration order of `std::map`).
* `TailIdentifier` is a natural number; the search loop of `addTail` is given
  as many iterations as there are registered consumers, plus one.
* The memory orderings and the mutex are not modelled: every member function
  is one atomic step of a sequential state machine.
* `RingBuffer.h` is not among the sources: `m_size` is taken to be 64 bits wide
  like the indices it is combined with, and it is initialised from the
  `unsigned int` argument of the constructor, so statements about a fresh
  buffer assume a capacity below `2^32`.
-/

namespace RingBuffer

/-- Reduction of an arithmetic result to the range of `uint64_t`. -/
def u64 (n : Nat) : Nat := n % 18446744073709551616

/-- The registry `m_tails`: pairs (identifier, cursor), in key order. -/
abbrev Tails := List (Nat × Nat)

/-- The call `m_tails.find(key)`: the cursor stored under `key`, if any. -/
def Tails.find (m : Tails) (key : Nat) : Option Nat := List.lookup key m

/-- The assignment `m_tails[key] = v` (or `.store(v)`): replaces the entry of
`key`, or inserts one at its place in key order. -/
def Tails.store : Tails → Nat → Nat → Tails
  | [], key, v => [(key, v)]
  | (k, c) :: rest, key, v =>
    if key < k then (key, v) :: (k, c) :: rest
    else if key = k then (key, v) :: rest
    else (k, c) :: Tails.store rest key v

/-- The registry after evaluating `m_tails[key]`: `std::map::operator[]`
value-initialises (to 0) an entry that is missing. -/
def Tails.index (m : Tails) (key : Nat) : Tails :=
  match Tails.find m key with
  | some _ => m
  | none => Tails.store m key 0

/-- The value read by `m_tails[key].load()`. -/
def Tails.load (m : Tails) (key : Nat) : Nat := (Tails.find m key).getD 0

/-- The call `m_tails.erase(key)`. -/
def Tails.erase (m : Tails) (key : Nat) : Tails := m.filter (fun p => p.1 != key)

end RingBuffer

/-- The members of `RingBuffer<T>`. `m_size` is set once from an
`unsigned int`; `m_head`, `m_tail` and the cursors are `uint64_t`. -/
structure RingBuffer (T : Type) where
  m_size : Nat
  m_buffer : List T
  m_head : Nat
  m_tail : Nat
  m_tails : RingBuffer.Tails
  deriving DecidableEq, Repr

namespace RingBuffer

variable {T : Type}

/-- The constructor `RingBuffer(maxSize)`. -/
def new (maxSize : Nat) : RingBuffer T :=
  { m_size := maxSize, m_buffer := [], m_head := 0, m_tail := 0, m_tails := [] }

/-- The helper `next(current)`: `(current + 1) % m_size`. -/
def next (b : RingBuffer T) (current : Nat) : Nat := u64 (current + 1) % b.m_size

/-- The helper `size(head, tail)`. -/
def size2 (b : RingBuffer T) (head tail : Nat) : Nat :=
  if head < tail then u64 (u64 (b.m_size + (18446744073709551616 - tail)) + head)
  else head - tail

/-- The member `push(object)`: the returned flag and the state afterwards. The
statement `assert(head < m_size)` changes no state; that it holds is part of
`ProducerInv`. -/
def push (b : RingBuffer T) (object : T) : Bool × RingBuffer T :=
  let head := b.m_head
  let nextHead := b.next head
  if nextHead = b.m_tail then (false, b)
  else
    let buffer := if b.m_buffer.length ≤ head then b.m_buffer ++ [object]
                  else b.m_buffer.set head object
    (true, { b with m_buffer := buffer, m_head := nextHead })

/-- The search loop of `addTail`, started at `i`; `fuel` bounds the number of
iterations and `none` means it was used up. -/
def addTailLoop (m : Tails) : Nat → Nat → Option Nat
  | 0, _ => none
  | fuel + 1, i =>
    match Tails.find m i with
    | none => some i
    | some _ => addTailLoop m fuel (i + 1)

/-- The member `addTail()`: the new identifier and the state afterwards. The
loop gets one more iteration than there are registered consumers. -/
def addTail (b : RingBuffer T) : Option (Nat × RingBuffer T) :=
  match addTailLoop b.m_tails (b.m_tails.length + 1) 0 with
  | none => none
  | some i => some (i, { b with m_tails := Tails.store b.m_tails i b.m_tail })

/-- The loop of `updateTail` over the registry, from the running minimum
`currentMin`; `none` is the early return taken when a cursor equals the
converged tail. -/
def updateTailLoop (size tail : Nat) : Tails → Nat → Option Nat
  | [], currentMin => some currentMin
  | (_, tailPos) :: rest, currentMin =>
    if tailPos = tail then none
    else
      let tailPos1 := if tailPos < tail then u64 (tailPos + size) else tailPos
      let currentMin1 := if tailPos1 < currentMin then tailPos1 else currentMin
      updateTailLoop size tail rest currentMin1

/-- The member `updateTail()`. -/
def updateTail (b : RingBuffer T) : RingBuffer T :=
  match updateTailLoop b.m_size b.m_tail b.m_tails (u64 (2 * b.m_size)) with
  | none => b
  | some currentMin =>
    if currentMin = u64 (2 * b.m_size) then b
    else
      let currentMin1 := if currentMin ≥ b.m_size then currentMin % b.m_size else currentMin
      { b with m_tail := currentMin1 }

/-- The member `removeTail(key)`. -/
def removeTail (b : RingBuffer T) (key : Nat) : RingBuffer T :=
  updateTail { b with m_tails := Tails.erase b.m_tails key }

/-- The member `pull(key, ok)`. The outer `none` is the exception of
`m_buffer.at`; otherwise the first component is `none` for `ok = false` and
`some object` for `ok = true`. -/
def pull (b : RingBuffer T) (key : Nat) : Option (Option T × RingBuffer T) :=
  let b1 : RingBuffer T := { b with m_tails := Tails.index b.m_tails key }
  let tail := Tails.load b1.m_tails key
  if tail = b1.m_head % b1.m_size then some (none, b1)
  else
    match b1.m_buffer[tail % b1.m_size]? with
    | none => none
    | some object =>
      some (some object,
        updateTail { b1 with m_tails := Tails.store b1.m_tails key (b1.next tail) })

/-- The loop of `pullBlock`, with `count` iterations left at index `i`. -/
def pullBlockLoop (b : RingBuffer T) : Nat → Nat → Option (List T)
  | 0, _ => some []
  | count + 1, i =>
    match b.m_buffer[i % b.m_size]? with
    | none => none
    | some object =>
      match pullBlockLoop b count (i + 1) with
      | none => none
      | some result => some (object :: result)

/-- The helper `pullBlock(begin, end)`: the loop runs for `begin ≤ i < end`. -/
def pullBlock (b : RingBuffer T) (begin_ end_ : Nat) : Option (List T) :=
  pullBlockLoop b (end_ - begin_) begin_

/-- The member `pullTail(key, length)`. -/
def pullTail (b : RingBuffer T) (key length : Nat) : Option (List T × RingBuffer T) :=
  let b1 : RingBuffer T := { b with m_tails := Tails.index b.m_tails key }
  let tail := Tails.load b1.m_tails key
  let newTail := u64 (tail + length)
  match pullBlock b1 tail newTail with
  | none => none
  | some result =>
    some (result, updateTail { b1 with m_tails := Tails.store b1.m_tails key newTail })

/-- The member `sizeTail(key)`: the count, and the registry after `m_tails[key]`. -/
def sizeTail (b : RingBuffer T) (key : Nat) : Nat × RingBuffer T :=
  let b1 : RingBuffer T := { b with m_tails := Tails.index b.m_tails key }
  (b1.size2 b1.m_head (Tails.load b1.m_tails key), b1)

/-- The member `pullTail(key)`, which drains `sizeTail(key)` items. -/
def pullTailAll (b : RingBuffer T) (key : Nat) : Option (List T × RingBuffer T) :=
  let r := sizeTail b key
  pullTail r.2 key r.1

/-- The member `maxSize()`. -/
def maxSize (b : RingBuffer T) : Nat := b.m_size % 4294967296

/-- The member `size()`, whose result type is `unsigned int`. -/
def size (b : RingBuffer T) : Nat := b.size2 b.m_head b.m_tail % 4294967296

/-- The member `isFull()`. -/
def isFull (b : RingBuffer T) : Bool := decide (b.next b.m_head = b.m_tail)

/-- The member `isEmpty()`. -/
def isEmpty (b : RingBuffer T) : Bool := decide (b.m_tail = b.m_head)

end RingBuffer

/-! ## Calls, outcomes and executions -/

/-- One call of a member function by the producer or by a consumer. -/
inductive Op (T : Type) where
  | push (v : T)
  | addTail
  | removeTail (key : Nat)
  | pull (key : Nat)
  | pullTail (key length : Nat)
  | pullTailAll (key : Nat)
  deriving DecidableEq, Repr

/-- What a call returned. -/
inductive Event (T : Type) where
  | pushed (v : T) (ok : Bool)
  | added (key : Nat)
  | removed (key : Nat)
  | pulled (key : Nat) (r : Option T)
  | pulledTail (key : Nat) (vs : List T)
  deriving DecidableEq, Repr

/-- The call is none of the two bulk pulls. -/
def Op.isSingle {T : Type} : Op T → Bool
  | .pullTail _ _ => false
  | .pullTailAll _ => false
  | _ => true

/-- The call is a push, or a single-item pull by a consumer in `keys`. -/
def Op.isPushOrPull {T : Type} (keys : Nat → Bool) : Op T → Bool
  | .push _ => true
  | .pull key => keys key
  | _ => false

namespace RingBuffer

variable {T : Type}

/-- The identifier `key` is registered. -/
def registered (b : RingBuffer T) (key : Nat) : Bool := (Tails.find b.m_tails key).isSome

/-- The caller contract of a call in state `b`: consumer calls name a registered
identifier, and a bulk pull asks for no more than `sizeTail` items. -/
def contract (b : RingBuffer T) : Op T → Bool
  | .push _ => true
  | .addTail => true
  | .removeTail key => b.registered key
  | .pull key => b.registered key
  | .pullTail key length => b.registered key && decide (length ≤ (b.sizeTail key).1)
  | .pullTailAll key => b.registered key

/-- Executes one call. `none` when the call is outside the caller contract or
does not return normally. -/
def step (b : RingBuffer T) (op : Op T) : Option (RingBuffer T × Event T) :=
  if b.contract op then
    match op with
    | .push v => some ((b.push v).2, .pushed v (b.push v).1)
    | .addTail => (b.addTail).map (fun r => (r.2, .added r.1))
    | .removeTail key => some (b.removeTail key, .removed key)
    | .pull key => (b.pull key).map (fun r => (r.2, .pulled key r.1))
    | .pullTail key length => (b.pullTail key length).map (fun r => (r.2, .pulledTail key r.1))
    | .pullTailAll key => (b.pullTailAll key).map (fun r => (r.2, .pulledTail key r.1))
  else none

/-- Executes a sequence of calls, collecting what each returned. -/
def run (b : RingBuffer T) : List (Op T) → Option (RingBuffer T × List (Event T))
  | [] => some (b, [])
  | op :: ops =>
    match b.step op with
    | none => none
    | some (b1, e) =>
      match run b1 ops with
      | none => none
      | some (b2, es) => some (b2, e :: es)

/-- The values whose push returned true, in order. -/
def pushedValues : List (Event T) → List T
  | [] => []
  | .pushed v true :: es => v :: pushedValues es
  | _ :: es => pushedValues es

/-- The values returned to consumer `key` by `pull` (with `ok = true`) and by
`pullTail`, in order. -/
def received (key : Nat) : List (Event T) → List T
  | [] => []
  | .pulled k (some v) :: es => if k = key then v :: received key es else received key es
  | .pulledTail k vs :: es => if k = key then vs ++ received key es else received key es
  | _ :: es => received key es

end RingBuffer

namespace RingBuffer

variable {T : Type}

/-! ## Auxiliary notions used by the statements -/

/-- The flags returned by pushing the values of a list one after the other. -/
def pushAll (b : RingBuffer T) : List T → List Bool
  | [] => []
  | v :: vs => (b.push v).1 :: pushAll (b.push v).2 vs

/-- The state after pushing the values of a list one after the other. -/
def pushAllState (b : RingBuffer T) : List T → RingBuffer T
  | [] => b
  | v :: vs => pushAllState (b.push v).2 vs

/-- A state is reachable when some sequence of calls within the caller
contract leads to it from a freshly constructed buffer of capacity at least 1
(the capacity being an `unsigned int`). -/
def Reachable (b : RingBuffer T) : Prop :=
  ∃ (n : Nat) (ops : List (Op T)) (es : List (Event T)),
    1 ≤ n ∧ n < 4294967296 ∧ run (new n) ops = some (b, es)

/-- The producer-side invariant: the capacity is a positive `unsigned int`,
`head` is below it, and the backing vector has grown to `head` elements (first
pass) or to the full capacity. -/
def ProducerInv (b : RingBuffer T) : Prop :=
  1 ≤ b.m_size ∧ b.m_size < 4294967296 ∧ b.m_head < b.m_size
    ∧ (b.m_buffer.length = b.m_head ∨ b.m_buffer.length = b.m_size)

/-- A consumer calling `pull(key, ok)` until it gets `ok = false`: the values it
received and the state afterwards. `none` when `fuel` calls were not enough or
a call did not return normally. -/
def pullUntilEmpty (key : Nat) : Nat → RingBuffer T → Option (List T × RingBuffer T)
  | 0, _ => none
  | fuel + 1, b =>
    match b.pull key with
    | none => none
    | some (none, b1) => some ([], b1)
    | some (some v, b1) =>
      match pullUntilEmpty key fuel b1 with
      | none => none
      | some (vs, b2) => some (v :: vs, b2)

/-- The producer pushes the values one by one and consumer `fast` pulls until
empty after every push: the flags of the pushes, the values `fast` received
and the state afterwards. -/
def pushDraining (fast fuel : Nat) :
    RingBuffer T → List T → Option (List Bool × List T × RingBuffer T)
  | b, [] => some ([], [], b)
  | b, v :: vs =>
    match pullUntilEmpty fast fuel (b.push v).2 with
    | none => none
    | some (got, b1) =>
      match pushDraining fast fuel b1 vs with
      | none => none
      | some (flags, got1, b2) => some ((b.push v).1 :: flags, got ++ got1, b2)

/-- The scenario of the specification at capacity 4, with the values 10 to 13. -/
def specScenario : List (Op Nat) :=
  [.push 10, .push 11, .push 12, .push 13, .addTail, .pull 0, .push 13, .pullTailAll 0]

/-- One consumer on a buffer of capacity 4: it pulls two values one at a time,
drains three more with `pullTail` across the end of the ring, and the
producer then pushes three further values. -/
def wrapTwice : List (Op Nat) :=
  [.addTail, .push 10, .push 11, .pull 0, .pull 0, .push 12, .push 13, .push 14,
   .pullTailAll 0, .push 15, .push 16, .push 17]

/-- Two consumers on a buffer of capacity 4, registered before any push:
consumer 0 drains with `pullTail` across the end of the ring, consumer 1 pulls
one value at a time; then 14 is pushed and pulled by consumer 1 only. -/
def twoConsumers : List (Op Nat) :=
  [.addTail, .addTail, .push 10, .push 11, .push 12, .pull 0, .pull 1, .push 13,
   .pullTailAll 0, .pull 1, .pull 1, .pull 1, .push 14, .pull 1]

/-- The calls of `twoConsumers` followed by three pushes and a pull by
consumer 1, after which `head` is back at slot 0. -/
def twoConsumersOn : List (Op Nat) :=
  twoConsumers ++ [.push 15, .push 16, .push 17, .pull 1]

/-- The registry is a valid `std::map`: its keys are strictly increasing. -/
def Tails.WF (m : Tails) : Prop := m.Pairwise (fun p q => p.1 < q.1)

/-- The number of registered consumers: the number of distinct keys. -/
def registeredCount (b : RingBuffer T) : Nat := (b.m_tails.map Prod.fst).dedup.length

/-- The invariant of every reachable state: the capacity is a positive
`unsigned int`, `head` and the converged tail are below it, the registry is a
valid map, and either the backing vector is fully grown or the ring is in its
first pass, where the vector has `head` elements and neither the converged
tail nor any cursor is beyond `head`. -/
structure RangeInv (b : RingBuffer T) : Prop where
  size_pos : 1 ≤ b.m_size
  size_lt : b.m_size < 4294967296
  head_lt : b.m_head < b.m_size
  tail_lt : b.m_tail < b.m_size
  keys : Tails.WF b.m_tails
  storage : b.m_buffer.length = b.m_size
    ∨ (b.m_buffer.length = b.m_head ∧ b.m_tail ≤ b.m_head ∧ ∀ p ∈ b.m_tails, p.2 ≤ b.m_head)

/-- The wrap-aware distance of `size(head, tail)` for indices below `m`. -/
def dist (m head tail : Nat) : Nat :=
  if head < tail then m - tail + head else head - tail

/-- The last `k` elements of a list. -/
def lastN (k : Nat) (l : List T) : List T := l.drop (l.length - k)

/-- The state agrees with the history `H` of the values pushed successfully so
far (oldest first): the `i`-th pushed value sits in slot `i mod maxSize` as
long as it is among the last `maxSize` ones, `head` is the slot of the next
push, and the converged tail and every cursor lie in the part of the ring
between the converged tail and `head`. -/
structure HistInv (b : RingBuffer T) (H : List T) : Prop where
  size_pos : 1 ≤ b.m_size
  size_lt : b.m_size < 4294967296
  head_eq : b.m_head = H.length % b.m_size
  buf_len : b.m_buffer.length = min H.length b.m_size
  slots : ∀ i, i < H.length → H.length ≤ i + b.m_size → b.m_buffer[i % b.m_size]? = H[i]?
  tail_lt : b.m_tail < b.m_size
  tail_le : dist b.m_size b.m_head b.m_tail ≤ H.length
  cursors : ∀ p ∈ b.m_tails,
    p.2 < b.m_size ∧ dist b.m_size b.m_head p.2 ≤ dist b.m_size b.m_head b.m_tail

end RingBuffer

/-! ## Arithmetic of `next` and `size` -/

namespace RingBuffer

variable {T : Type}

theorem u64_of_lt {n : Nat} (h : n < 18446744073709551616) : u64 n = n := by
  unfold u64
  exact Nat.mod_eq_of_lt h

theorem succ_mod_of_lt {c m : Nat} (h : c < m) :
    (c + 1) % m = if c + 1 = m then 0 else c + 1 := by
  split
  · next h1 => rw [h1]; exact Nat.mod_self m
  · next h1 => exact Nat.mod_eq_of_lt (by omega)

theorem next_of_lt (b : RingBuffer T) {c : Nat} (h : c < b.m_size)
    (hs : b.m_size < 4294967296) :
    b.next c = if c + 1 = b.m_size then 0 else c + 1 := by
  unfold next
  rw [u64_of_lt (by omega), succ_mod_of_lt h]

theorem size2_eq_dist (b : RingBuffer T) {head tail : Nat} (hh : head < b.m_size)
    (ht : tail < b.m_size) (hs : b.m_size < 4294967296) :
    b.size2 head tail = dist b.m_size head tail := by
  unfold size2 dist u64
  split
  · omega
  · rfl

/-! ## C1: capacity with no consumer -/

theorem pushAll_from (b : RingBuffer T) (vs : List T) (hs : b.m_size < 4294967296)
    (hh : b.m_head < b.m_size) (ht : b.m_tail = 0) :
    pushAll b vs
      = (List.range vs.length).map (fun i => decide (b.m_head + i < b.m_size - 1)) := by
  induction vs generalizing b with
  | nil => rfl
  | cons v vs ih =>
    rw [List.length_cons, List.range_succ_eq_map, List.map_cons, List.map_map]
    unfold pushAll
    have hn := next_of_lt b hh hs
    by_cases hfull : b.m_head + 1 = b.m_size
    · have hp : b.push v = (false, b) := by
        unfold push
        simp [hn, hfull, ht]
      rw [hp]
      simp only
      rw [ih b hs hh ht]
      congr 1
      · simp; omega
      · apply List.map_congr_left
        intro i _
        simp only [Function.comp, Nat.succ_eq_add_one]
        have h1 : ¬ (b.m_head + i < b.m_size - 1) := by omega
        have h2 : ¬ (b.m_head + (i + 1) < b.m_size - 1) := by omega
        simp [h1, h2]
    · have hne : b.next b.m_head ≠ b.m_tail := by
        rw [hn, ht]; simp [hfull]
      have hp1 : (b.push v).1 = true := by
        unfold push
        simp [hne]
      have hp2 : (b.push v).2.m_size = b.m_size ∧ (b.push v).2.m_head = b.m_head + 1
          ∧ (b.push v).2.m_tail = 0 := by
        unfold push
        simp [hne, hn, hfull, ht]
      obtain ⟨e1, e2, e3⟩ := hp2
      rw [hp1, ih (b.push v).2 (by omega) (by omega) e3, e1, e2]
      congr 1
      · simp; omega
      · apply List.map_congr_left
        intro i _
        simp only [Function.comp, Nat.succ_eq_add_one]
        have : b.m_head + 1 + i = b.m_head + (i + 1) := by omega
        rw [this]

/-- C1. On a fresh buffer of capacity `maxSize ≥ 1` on which no consumer is ever
registered, the `i`-th push (counted from 0) returns true exactly when
`i < maxSize - 1`: the first `maxSize - 1` pushes succeed and every later one
fails. -/
theorem push_capacity_no_consumer (maxSize : Nat) (h1 : 1 ≤ maxSize)
    (h2 : maxSize < 4294967296) (vs : List T) :
    pushAll (new maxSize) vs
      = (List.range vs.length).map (fun i => decide (i < maxSize - 1)) := by
  have h := pushAll_from (new maxSize : RingBuffer T) vs h2 h1 rfl
  simpa [new] using h

/-- Witness of C1: capacity 4, five pushes. -/
theorem push_capacity_no_consumer_witness :
    pushAll (new 4) [10, 11, 12, 13, 14] = [true, true, true, false, false] :=
  push_capacity_no_consumer 4 (by decide) (by decide) [10, 11, 12, 13, 14]

/-! ## C2: a failing push -/

/-- C2. In every state with `maxSize ≥ 1`, `push` returns false exactly when
`isFull` reports true, that is when `next(head)` is the converged tail; when the
64-bit increment of `head` does not wrap this is `(head + 1) mod maxSize =
converged tail`. A push that returns false leaves the whole state unchanged:
head, converged tail, registry and slots. -/
theorem push_false_iff_full (b : RingBuffer T) (v : T) (_hsize : 1 ≤ b.m_size) :
    ((b.push v).1 = false ↔ b.isFull = true)
    ∧ (b.m_head + 1 < 18446744073709551616 →
        ((b.push v).1 = false ↔ (b.m_head + 1) % b.m_size = b.m_tail))
    ∧ ((b.push v).1 = false → (b.push v).2 = b) := by
  have key : (b.push v).1 = false ↔ b.next b.m_head = b.m_tail := by
    unfold push
    by_cases h : b.next b.m_head = b.m_tail <;> simp [h]
  refine ⟨?_, ?_, ?_⟩
  · rw [key]; simp [isFull]
  · intro hh
    rw [key]
    unfold next
    rw [u64_of_lt hh]
  · intro hf
    have h := key.mp hf
    unfold push
    simp [h]

/-- Witness of C2: a full buffer of capacity 4 (head 3, converged tail 0). -/
theorem push_false_iff_full_witness :
    (push ({ m_size := 4, m_buffer := [1, 2, 3], m_head := 3, m_tail := 0,
             m_tails := [] } : RingBuffer Nat) 9).1 = false
    ∧ (3 + 1) % 4 = 0
    ∧ (push ({ m_size := 4, m_buffer := [1, 2, 3], m_head := 3, m_tail := 0,
               m_tails := [] } : RingBuffer Nat) 9).2
        = { m_size := 4, m_buffer := [1, 2, 3], m_head := 3, m_tail := 0, m_tails := [] } :=
  ⟨rfl,
   ((push_false_iff_full
      { m_size := 4, m_buffer := [1, 2, 3], m_head := 3, m_tail := 0, m_tails := [] } 9
      (by decide)).2.1 (by decide)).mp rfl,
   (push_false_iff_full
      { m_size := 4, m_buffer := [1, 2, 3], m_head := 3, m_tail := 0, m_tails := [] } 9
      (by decide)).2.2 rfl⟩

/-! ## Members left alone by the consumer-side calls -/

@[simp] theorem updateTail_m_size (b : RingBuffer T) : (updateTail b).m_size = b.m_size := by
  unfold updateTail
  split
  · rfl
  · split <;> rfl

@[simp] theorem updateTail_m_buffer (b : RingBuffer T) :
    (updateTail b).m_buffer = b.m_buffer := by
  unfold updateTail
  split
  · rfl
  · split <;> rfl

@[simp] theorem updateTail_m_head (b : RingBuffer T) : (updateTail b).m_head = b.m_head := by
  unfold updateTail
  split
  · rfl
  · split <;> rfl

@[simp] theorem updateTail_m_tails (b : RingBuffer T) :
    (updateTail b).m_tails = b.m_tails := by
  unfold updateTail
  split
  · rfl
  · split <;> rfl

theorem addTail_frame {b b1 : RingBuffer T} {i : Nat} (h : b.addTail = some (i, b1)) :
    b1.m_size = b.m_size ∧ b1.m_buffer = b.m_buffer ∧ b1.m_head = b.m_head
    ∧ b1.m_tail = b.m_tail ∧ b1.m_tails = Tails.store b.m_tails i b.m_tail := by
  unfold addTail at h
  split at h
  · exact absurd h (by simp)
  · simp only [Option.some.injEq, Prod.mk.injEq] at h
    obtain ⟨h1, h2⟩ := h
    subst h2 h1
    exact ⟨rfl, rfl, rfl, rfl, rfl⟩

theorem removeTail_frame (b : RingBuffer T) (key : Nat) :
    (b.removeTail key).m_size = b.m_size ∧ (b.removeTail key).m_buffer = b.m_buffer
    ∧ (b.removeTail key).m_head = b.m_head := by
  unfold removeTail
  simp

theorem pull_frame {b b1 : RingBuffer T} {key : Nat} {r : Option T}
    (h : b.pull key = some (r, b1)) :
    b1.m_size = b.m_size ∧ b1.m_buffer = b.m_buffer ∧ b1.m_head = b.m_head := by
  unfold pull at h
  simp only at h
  split at h
  · simp only [Option.some.injEq, Prod.mk.injEq] at h
    obtain ⟨_, h2⟩ := h
    subst h2
    exact ⟨rfl, rfl, rfl⟩
  · split at h
    · exact absurd h (by simp)
    · simp only [Option.some.injEq, Prod.mk.injEq] at h
      obtain ⟨_, h2⟩ := h
      subst h2
      simp

theorem pullTail_frame {b b1 : RingBuffer T} {key length : Nat} {r : List T}
    (h : b.pullTail key length = some (r, b1)) :
    b1.m_size = b.m_size ∧ b1.m_buffer = b.m_buffer ∧ b1.m_head = b.m_head := by
  unfold pullTail at h
  simp only at h
  split at h
  · exact absurd h (by simp)
  · simp only [Option.some.injEq, Prod.mk.injEq] at h
    obtain ⟨_, h2⟩ := h
    subst h2
    simp

theorem pullTailAll_frame {b b1 : RingBuffer T} {key : Nat} {r : List T}
    (h : b.pullTailAll key = some (r, b1)) :
    b1.m_size = b.m_size ∧ b1.m_buffer = b.m_buffer ∧ b1.m_head = b.m_head := by
  unfold pullTailAll at h
  have h1 := pullTail_frame h
  simpa [sizeTail] using h1

/-! ## C3: a successful push -/

theorem step_frame {b b1 : RingBuffer T} {op : Op T} {e : Event T}
    (h : b.step op = some (b1, e)) :
    (∃ v, op = .push v ∧ b1 = (b.push v).2 ∧ e = .pushed v (b.push v).1)
    ∨ (b1.m_size = b.m_size ∧ b1.m_buffer = b.m_buffer ∧ b1.m_head = b.m_head) := by
  unfold step at h
  split at h
  · cases op with
    | push v =>
      simp only [Option.some.injEq, Prod.mk.injEq] at h
      exact Or.inl ⟨v, rfl, h.1.symm, h.2.symm⟩
    | addTail =>
      simp only [Option.map_eq_some', Prod.mk.injEq] at h
      obtain ⟨⟨i, b2⟩, h1, h2, _⟩ := h
      simp only at h2
      subst h2
      obtain ⟨e1, e2, e3, _⟩ := addTail_frame h1
      exact Or.inr ⟨e1, e2, e3⟩
    | removeTail key =>
      simp only [Option.some.injEq, Prod.mk.injEq] at h
      rw [← h.1]
      exact Or.inr (removeTail_frame b key)
    | pull key =>
      simp only [Option.map_eq_some', Prod.mk.injEq] at h
      obtain ⟨⟨r, b2⟩, h1, h2, _⟩ := h
      simp only at h2
      subst h2
      exact Or.inr (pull_frame h1)
    | pullTail key length =>
      simp only [Option.map_eq_some', Prod.mk.injEq] at h
      obtain ⟨⟨r, b2⟩, h1, h2, _⟩ := h
      simp only at h2
      subst h2
      exact Or.inr (pullTail_frame h1)
    | pullTailAll key =>
      simp only [Option.map_eq_some', Prod.mk.injEq] at h
      obtain ⟨⟨r, b2⟩, h1, h2, _⟩ := h
      simp only at h2
      subst h2
      exact Or.inr (pullTailAll_frame h1)
  · exact absurd h (by simp)

theorem run_cons {b b2 : RingBuffer T} {op : Op T} {ops : List (Op T)} {es : List (Event T)}
    (h : run b (op :: ops) = some (b2, es)) :
    ∃ b1 e es1, b.step op = some (b1, e) ∧ run b1 ops = some (b2, es1) ∧ es = e :: es1 := by
  unfold run at h
  split at h
  · exact absurd h (by simp)
  · next b1 e hstep =>
    split at h
    · exact absurd h (by simp)
    · next b3 es1 hrun =>
      simp only [Option.some.injEq, Prod.mk.injEq] at h
      exact ⟨b1, e, es1, hstep, by rw [hrun, h.1], h.2.symm⟩

theorem ProducerInv_push {b : RingBuffer T} (h : ProducerInv b) (v : T) :
    ProducerInv (b.push v).2 := by
  obtain ⟨h1, h2, h3, h4⟩ := h
  have hn := next_of_lt b h3 h2
  unfold push
  simp only
  split
  · exact ⟨h1, h2, h3, h4⟩
  · refine ⟨h1, h2, ?_, ?_⟩
    · show b.next b.m_head < b.m_size
      rw [hn]; split <;> omega
    · show (if b.m_buffer.length ≤ b.m_head then b.m_buffer ++ [v]
          else b.m_buffer.set b.m_head v).length = b.next b.m_head ∨ _ = b.m_size
      rw [hn]
      split
      · rw [List.length_append, List.length_singleton]
        split <;> omega
      · rw [List.length_set]
        omega

theorem ProducerInv_step {b b1 : RingBuffer T} {op : Op T} {e : Event T}
    (h : ProducerInv b) (hs : b.step op = some (b1, e)) : ProducerInv b1 := by
  rcases step_frame hs with ⟨v, _, hb, _⟩ | ⟨e1, e2, e3⟩
  · rw [hb]; exact ProducerInv_push h v
  · unfold ProducerInv
    rw [e1, e2, e3]
    exact h

theorem ProducerInv_run {b b1 : RingBuffer T} {ops : List (Op T)} {es : List (Event T)}
    (h : ProducerInv b) (hr : run b ops = some (b1, es)) : ProducerInv b1 := by
  induction ops generalizing b es with
  | nil =>
    simp only [run, Option.some.injEq, Prod.mk.injEq] at hr
    rw [← hr.1]; exact h
  | cons op ops ih =>
    obtain ⟨b2, e, es1, hstep, hrun, _⟩ := run_cons hr
    exact ih (ProducerInv_step h hstep) hrun

theorem ProducerInv_of_reachable {b : RingBuffer T} (h : Reachable b) : ProducerInv b := by
  obtain ⟨n, ops, es, h1, h2, hr⟩ := h
  exact ProducerInv_run (b := new n) ⟨h1, h2, h1, Or.inl rfl⟩ hr

/-- C3. In every reachable state, a push of `v` that returns true stores `v` in
slot `head` (the old head), sets `head` to `(old head + 1) mod maxSize`, and
leaves the converged tail, the registry (every consumer cursor), the capacity
and every other slot unchanged. -/
theorem push_true_effect (b : RingBuffer T) (v : T) (hreach : Reachable b)
    (hok : (b.push v).1 = true) :
    (b.push v).2.m_buffer[b.m_head]? = some v
    ∧ (b.push v).2.m_head = (b.m_head + 1) % b.m_size
    ∧ (b.push v).2.m_tail = b.m_tail
    ∧ (b.push v).2.m_tails = b.m_tails
    ∧ (b.push v).2.m_size = b.m_size
    ∧ (b.push v).2.m_buffer.length = max b.m_buffer.length (b.m_head + 1)
    ∧ ∀ i, i ≠ b.m_head → (b.push v).2.m_buffer[i]? = b.m_buffer[i]? := by
  obtain ⟨h1, h2, h3, h4⟩ := ProducerInv_of_reachable hreach
  have hne : ¬ b.next b.m_head = b.m_tail := by
    intro h
    unfold push at hok
    simp [h] at hok
  have hnext : b.next b.m_head = (b.m_head + 1) % b.m_size := by
    unfold next
    rw [u64_of_lt (by omega)]
  have hpush : b.push v = (true, { b with
      m_buffer := if b.m_buffer.length ≤ b.m_head then b.m_buffer ++ [v]
                  else b.m_buffer.set b.m_head v,
      m_head := b.next b.m_head }) := by
    unfold push
    simp only [hne, if_false]
  rw [hpush]
  refine ⟨?_, hnext, rfl, rfl, rfl, ?_, ?_⟩ <;> simp only
  · split
    · next hle =>
      have : b.m_buffer.length = b.m_head := by omega
      rw [← this]
      simp
    · next hgt =>
      rw [List.getElem?_set_self (by omega)]
  · split
    · rw [List.length_append, List.length_singleton]; omega
    · rw [List.length_set]; omega
  · intro i hi
    split
    · next hle =>
      have hlen : b.m_buffer.length = b.m_head := by omega
      by_cases hlt : i < b.m_buffer.length
      · rw [List.getElem?_append_left hlt]
      · rw [List.getElem?_eq_none (by simp; omega), List.getElem?_eq_none (by omega)]
    · next hgt =>
      rw [List.getElem?_set_ne (by omega)]

/-- Witness of C3: the second push on a fresh buffer of capacity 4. -/
theorem push_true_effect_witness :
    ((new 4).push 10).2.push 11
      = (true, { m_size := 4, m_buffer := [10, 11], m_head := 2, m_tail := 0, m_tails := [] })
    ∧ (((new 4).push 10).2.push 11).2.m_buffer[1]? = some 11 :=
  ⟨rfl, (push_true_effect ((new 4).push 10).2 11
    ⟨4, [.push 10], [.pushed 10 true], by decide, by decide, rfl⟩ rfl).1⟩

/-! ## C5: the scenario of the specification -/

theorem push_first_pass (b : RingBuffer T) (v : T) (hs : b.m_size < 4294967296)
    (hlen : b.m_buffer.length = b.m_head) (hh : b.m_head + 1 < b.m_size)
    (ht : b.m_tail ≠ b.m_head + 1) :
    b.push v = (true, { b with m_buffer := b.m_buffer ++ [v], m_head := b.m_head + 1 }) := by
  have hn : b.next b.m_head = b.m_head + 1 := by
    rw [next_of_lt b (by omega) hs, if_neg (by omega)]
  unfold push
  simp only [hn]
  rw [if_neg (fun h => ht h.symm), if_pos (by omega)]

theorem pushAll_first_pass (b : RingBuffer T) (ws : List T) (hs : b.m_size < 4294967296)
    (hlen : b.m_buffer.length = b.m_head) (hh : b.m_head + ws.length < b.m_size)
    (ht : b.m_tail = 0) :
    pushAll b ws = List.replicate ws.length true
    ∧ pushAllState b ws
        = { b with m_buffer := b.m_buffer ++ ws, m_head := b.m_head + ws.length } := by
  induction ws generalizing b with
  | nil => simp [pushAll, pushAllState]
  | cons w ws ih =>
    simp only [List.length_cons] at hh
    have hp := push_first_pass b w hs hlen (by omega) (by omega)
    unfold pushAll pushAllState
    rw [hp]
    simp only
    obtain ⟨i1, i2⟩ := ih { b with m_buffer := b.m_buffer ++ [w], m_head := b.m_head + 1 }
      hs (by simp [hlen]) (by simp only; omega) ht
    rw [i1, i2]
    refine ⟨by simp [List.replicate_succ], ?_⟩
    simp only [List.append_assoc, List.singleton_append, List.length_cons]
    congr 1
    omega

theorem pullBlockLoop_no_wrap (b : RingBuffer T) (count i : Nat)
    (h1 : i + count ≤ b.m_size) (h2 : i + count ≤ b.m_buffer.length) :
    pullBlockLoop b count i = some ((b.m_buffer.drop i).take count) := by
  induction count generalizing i with
  | zero => simp [pullBlockLoop]
  | succ count ih =>
    unfold pullBlockLoop
    have hi : i < b.m_buffer.length := by omega
    rw [Nat.mod_eq_of_lt (by omega), List.getElem?_eq_getElem hi]
    simp only
    rw [ih (i + 1) (by omega) (by omega)]
    simp only
    rw [List.drop_eq_getElem_cons hi, List.take_succ_cons]

theorem scenario_addTail (n h : Nat) (buf : List T) :
    addTail ({ m_size := n, m_buffer := buf, m_head := h, m_tail := 0, m_tails := [] } :
        RingBuffer T)
      = some (0, { m_size := n, m_buffer := buf, m_head := h, m_tail := 0,
                   m_tails := [(0, 0)] }) := rfl

theorem scenario_push_full (k : Nat) (buf : List T) (v : T) (hk : k + 2 < 4294967296) :
    push ({ m_size := k + 2, m_buffer := buf, m_head := k + 1, m_tail := 0, m_tails := [] } :
        RingBuffer T) v
      = (false, { m_size := k + 2, m_buffer := buf, m_head := k + 1, m_tail := 0,
                  m_tails := [] }) := by
  have hn : u64 (k + 1 + 1) % (k + 2) = 0 := by
    rw [u64_of_lt (by omega)]
    exact Nat.mod_self _
  simp [push, next, hn]

theorem scenario_pull (k : Nat) (v1 : T) (mid : List T) (hk : k + 2 < 4294967296) :
    pull ({ m_size := k + 2, m_buffer := v1 :: mid, m_head := k + 1, m_tail := 0,
            m_tails := [(0, 0)] } : RingBuffer T) 0
      = some (some v1, { m_size := k + 2, m_buffer := v1 :: mid, m_head := k + 1,
                         m_tail := 1, m_tails := [(0, 1)] }) := by
  have h1 : (k + 1) % (k + 2) = k + 1 := Nat.mod_eq_of_lt (by omega)
  have h2 : u64 (0 + 1) % (k + 2) = 1 := by
    rw [u64_of_lt (by omega)]
    exact Nat.mod_eq_of_lt (by omega)
  have h3 : u64 (2 * (k + 2)) = 2 * (k + 2) := u64_of_lt (by omega)
  have h4 : 1 < 2 * (k + 2) := by omega
  have h5 : ¬ (k + 2 ≤ 1) := by omega
  have h6 : ¬ (1 = 2 * (k + 2)) := by omega
  simp [pull, Tails.index, Tails.find, Tails.load, Tails.store, List.lookup, next, h1, h2,
    updateTail, updateTailLoop, h3, h4, h5, h6]

theorem scenario_push_wrap (k : Nat) (buf : List T) (v : T) (hk : k + 2 < 4294967296)
    (hlen : buf.length = k + 1) :
    push ({ m_size := k + 2, m_buffer := buf, m_head := k + 1, m_tail := 1,
            m_tails := [(0, 1)] } : RingBuffer T) v
      = (true, { m_size := k + 2, m_buffer := buf ++ [v], m_head := 0, m_tail := 1,
                 m_tails := [(0, 1)] }) := by
  have hn : u64 (k + 1 + 1) % (k + 2) = 0 := by
    rw [u64_of_lt (by omega)]
    exact Nat.mod_self _
  simp [push, next, hn, hlen]

theorem scenario_pullTailAll (k : Nat) (v1 : T) (rest : List T) (hk : k + 2 < 4294967296)
    (hlen : rest.length = k + 1) :
    pullTailAll ({ m_size := k + 2, m_buffer := v1 :: rest, m_head := 0, m_tail := 1,
                   m_tails := [(0, 1)] } : RingBuffer T) 0
      = some (rest, { m_size := k + 2, m_buffer := v1 :: rest, m_head := 0, m_tail := 0,
                      m_tails := [(0, k + 2)] }) := by
  have hsz : sizeTail ({ m_size := k + 2, m_buffer := v1 :: rest, m_head := 0, m_tail := 1,
                         m_tails := [(0, 1)] } : RingBuffer T) 0
      = (k + 1, { m_size := k + 2, m_buffer := v1 :: rest, m_head := 0, m_tail := 1,
                  m_tails := [(0, 1)] }) := by
    simp [sizeTail, Tails.index, Tails.find, Tails.load, List.lookup, size2, u64]
    omega
  have hblock : pullBlock ({ m_size := k + 2, m_buffer := v1 :: rest, m_head := 0,
                             m_tail := 1, m_tails := [(0, 1)] } : RingBuffer T) 1 (k + 2)
      = some rest := by
    unfold pullBlock
    rw [pullBlockLoop_no_wrap _ _ _ (by simp only; omega) (by simp [hlen]; omega)]
    simp only [List.drop_succ_cons, List.drop_zero, Option.some.injEq]
    exact List.take_of_length_le (by omega)
  have h1 : u64 (1 + (k + 1)) = k + 2 := by rw [u64_of_lt (by omega)]; omega
  have h3 : u64 (2 * (k + 2)) = 2 * (k + 2) := u64_of_lt (by omega)
  have h4 : k + 2 < 2 * (k + 2) := by omega
  have h5 : ¬ (k + 2 = 1) := by omega
  have h6 : ¬ (k + 2 = 2 * (k + 2)) := by omega
  have h7 : ¬ (k + 2 < 1) := by omega
  unfold pullTailAll
  rw [hsz]
  simp [pullTail, Tails.index, Tails.find, Tails.load, Tails.store, List.lookup, h1, hblock,
    updateTail, updateTailLoop, h3, h4, h5, h6, h7]

/-- C5. The scenario of the specification, for every capacity `n = |mid| + 2 ≥ 2`
and values `v1, mid, vn`: on a fresh buffer of capacity `n`, pushing the first
`n - 1` values `v1, mid` succeeds each time and pushing `vn` fails; after
`X = addTail()`, `pull(X)` returns `v1` with `ok = true`; pushing `vn` now
succeeds; and `pullTail(X)` then returns exactly `mid` followed by `vn`. -/
theorem spec_scenario (v1 : T) (mid : List T) (vn : T)
    (hn : mid.length + 2 < 4294967296) :
    pushAll (new (mid.length + 2)) (v1 :: mid) = List.replicate (mid.length + 1) true
    ∧ ((pushAllState (new (mid.length + 2)) (v1 :: mid)).push vn).1 = false
    ∧ ∃ X b2 b3 b5,
        ((pushAllState (new (mid.length + 2)) (v1 :: mid)).push vn).2.addTail = some (X, b2)
        ∧ b2.pull X = some (some v1, b3)
        ∧ (b3.push vn).1 = true
        ∧ (b3.push vn).2.pullTailAll X = some (mid ++ [vn], b5) := by
  obtain ⟨hflags, hstate⟩ := pushAll_first_pass (new (mid.length + 2) : RingBuffer T)
    (v1 :: mid) hn rfl (by simp [new]) rfl
  have hstate1 : pushAllState (new (mid.length + 2) : RingBuffer T) (v1 :: mid)
      = { m_size := mid.length + 2, m_buffer := v1 :: mid, m_head := mid.length + 1,
          m_tail := 0, m_tails := [] } := by
    rw [hstate]
    simp [new]
  refine ⟨by simpa using hflags, ?_, ?_⟩
  · rw [hstate1, scenario_push_full mid.length (v1 :: mid) vn hn]
  · rw [hstate1, scenario_push_full mid.length (v1 :: mid) vn hn]
    have hpush := scenario_push_wrap mid.length (v1 :: mid) vn hn (by simp)
    have hdrain := scenario_pullTailAll mid.length v1 (mid ++ [vn]) hn (by simp)
    refine ⟨0, _, _, ⟨mid.length + 2, v1 :: (mid ++ [vn]), 0, 0, [(0, mid.length + 2)]⟩,
      scenario_addTail _ _ _, scenario_pull mid.length v1 mid hn, ?_, ?_⟩
    · rw [hpush]
    · rw [hpush]
      exact hdrain

/-- Witness of C5: capacity 4 and the values A, B, C, D. -/
theorem spec_scenario_witness :
    pushAll (new 4) ['A', 'B', 'C'] = [true, true, true]
    ∧ ((pushAllState (new 4) ['A', 'B', 'C']).push 'D').1 = false
    ∧ ∃ X b2 b3 b5,
        ((pushAllState (new 4) ['A', 'B', 'C']).push 'D').2.addTail = some (X, b2)
        ∧ b2.pull X = some (some 'A', b3)
        ∧ (b3.push 'D').1 = true
        ∧ (b3.push 'D').2.pullTailAll X = some (['B', 'C', 'D'], b5) :=
  spec_scenario 'A' ['B', 'C'] 'D' (by decide)

/-! ## C9: a fast and a slow consumer -/

theorem pacing_pull_fast (m : Nat) (pre : List T) (v : T) (hm : m < 4294967296)
    (hlen : pre.length + 1 < m) :
    pull ({ m_size := m, m_buffer := pre ++ [v], m_head := pre.length + 1, m_tail := 0,
            m_tails := [(0, pre.length), (1, 0)] } : RingBuffer T) 0
      = some (some v, { m_size := m, m_buffer := pre ++ [v], m_head := pre.length + 1,
                        m_tail := 0, m_tails := [(0, pre.length + 1), (1, 0)] }) := by
  have h1 : (pre.length + 1) % m = pre.length + 1 := Nat.mod_eq_of_lt hlen
  have h2 : pre.length % m = pre.length := Nat.mod_eq_of_lt (by omega)
  have h3 : u64 (pre.length + 1) = pre.length + 1 := u64_of_lt (by omega)
  simp [pull, Tails.index, Tails.find, Tails.load, Tails.store, List.lookup, next, h1, h2, h3,
    updateTail, updateTailLoop]

theorem pacing_pull_fast_empty (m h t c : Nat) (buf : List T) :
    pull ({ m_size := m, m_buffer := buf, m_head := h % m, m_tail := t,
            m_tails := [(0, h % m), (1, c)] } : RingBuffer T) 0
      = some (none, { m_size := m, m_buffer := buf, m_head := h % m, m_tail := t,
                      m_tails := [(0, h % m), (1, c)] }) := by
  simp [pull, Tails.index, Tails.find, Tails.load, List.lookup]

theorem pacing_drain_fast (m fuel : Nat) (pre : List T) (v : T) (hm : m < 4294967296)
    (hlen : pre.length + 1 < m) :
    pullUntilEmpty 0 (fuel + 2)
        ({ m_size := m, m_buffer := pre ++ [v], m_head := pre.length + 1, m_tail := 0,
           m_tails := [(0, pre.length), (1, 0)] } : RingBuffer T)
      = some ([v], { m_size := m, m_buffer := pre ++ [v], m_head := pre.length + 1,
                     m_tail := 0, m_tails := [(0, pre.length + 1), (1, 0)] }) := by
  have h1 : (pre.length + 1) % m = pre.length + 1 := Nat.mod_eq_of_lt hlen
  have he := pacing_pull_fast_empty m (pre.length + 1) 0 0 (pre ++ [v])
  rw [h1] at he
  unfold pullUntilEmpty
  rw [pacing_pull_fast m pre v hm hlen]
  simp only
  unfold pullUntilEmpty
  rw [he]

theorem pacing_push_phase (m fuel : Nat) (pre vs : List T) (hm : m < 4294967296)
    (hlen : pre.length + vs.length < m) :
    pushDraining 0 (fuel + 2)
        ({ m_size := m, m_buffer := pre, m_head := pre.length, m_tail := 0,
           m_tails := [(0, pre.length), (1, 0)] } : RingBuffer T) vs
      = some (List.replicate vs.length true, vs,
          { m_size := m, m_buffer := pre ++ vs, m_head := pre.length + vs.length, m_tail := 0,
            m_tails := [(0, pre.length + vs.length), (1, 0)] }) := by
  induction vs generalizing pre with
  | nil => simp [pushDraining]
  | cons v vs ih =>
    simp only [List.length_cons] at hlen
    have hp := push_first_pass
      ({ m_size := m, m_buffer := pre, m_head := pre.length, m_tail := 0,
         m_tails := [(0, pre.length), (1, 0)] } : RingBuffer T) v hm rfl
      (by simp only; omega) (by simp only; omega)
    have hi := ih (pre ++ [v]) (by simp; omega)
    simp only [List.length_append, List.length_singleton, List.append_assoc,
      List.singleton_append] at hi
    unfold pushDraining
    rw [hp]
    simp only
    rw [pacing_drain_fast m fuel pre v hm (by omega)]
    simp only
    rw [hi]
    simp only [List.length_cons, List.replicate_succ, List.singleton_append, Option.some.injEq,
      Prod.mk.injEq, true_and]
    rw [show pre.length + 1 + vs.length = pre.length + (vs.length + 1) from by omega]

theorem pacing_pull_slow (m n j : Nat) (buf : List T) (hm : m < 4294967296)
    (hn : n < m) (hj : j < n) (hlen : buf.length = n) :
    pull ({ m_size := m, m_buffer := buf, m_head := n, m_tail := j,
            m_tails := [(0, n), (1, j)] } : RingBuffer T) 1
      = some (buf[j]?, { m_size := m, m_buffer := buf, m_head := n, m_tail := j + 1,
                         m_tails := [(0, n), (1, j + 1)] }) := by
  have h1 : n % m = n := Nat.mod_eq_of_lt hn
  have h2 : j % m = j := Nat.mod_eq_of_lt (by omega)
  have h3 : u64 (j + 1) % m = j + 1 := by
    rw [u64_of_lt (by omega)]
    exact Nat.mod_eq_of_lt (by omega)
  have h4 : u64 (2 * m) = 2 * m := u64_of_lt (by omega)
  have h5 : buf[j]? = some (buf[j]) := List.getElem?_eq_getElem (by omega)
  have h6 : ¬ (j = n) := by omega
  have h7 : ¬ (n = j) := by omega
  have h8 : ¬ (n < j) := by omega
  have h9 : n < 2 * m := by omega
  have h10 : ¬ (n < j + 1) := by omega
  have h11 : ¬ (j + 1 = 2 * m) := by omega
  have h12 : ¬ (m ≤ j + 1) := by omega
  have h13 : j + 1 ≤ n := by omega
  have h14 : (if j + 1 < n then j + 1 else n) = j + 1 := by split <;> omega
  simp [pull, Tails.index, Tails.find, Tails.load, Tails.store, List.lookup, next, h1, h2, h3,
    updateTail, updateTailLoop, h4, h5, h6, h7, h8, h9, h10, h11, h12, h14]

theorem pacing_pull_slow_empty (m n t c : Nat) (buf : List T) (hn : n < m) :
    pull ({ m_size := m, m_buffer := buf, m_head := n, m_tail := t,
            m_tails := [(0, c), (1, n)] } : RingBuffer T) 1
      = some (none, { m_size := m, m_buffer := buf, m_head := n, m_tail := t,
                      m_tails := [(0, c), (1, n)] }) := by
  have h1 : n % m = n := Nat.mod_eq_of_lt hn
  simp [pull, Tails.index, Tails.find, Tails.load, List.lookup, h1]

theorem pacing_drain_slow (m n : Nat) (buf : List T) (hm : m < 4294967296) (hn : n < m)
    (hlen : buf.length = n) (k j fuel : Nat) (hk : j + k = n) (hfuel : k < fuel) :
    pullUntilEmpty 1 fuel
        ({ m_size := m, m_buffer := buf, m_head := n, m_tail := j,
           m_tails := [(0, n), (1, j)] } : RingBuffer T)
      = some (buf.drop j, { m_size := m, m_buffer := buf, m_head := n, m_tail := n,
                            m_tails := [(0, n), (1, n)] }) := by
  induction k generalizing j fuel with
  | zero =>
    obtain ⟨f, rfl⟩ : ∃ f, fuel = f + 1 := ⟨fuel - 1, by omega⟩
    have hj : j = n := by omega
    subst hj
    unfold pullUntilEmpty
    rw [pacing_pull_slow_empty m j j j buf hn]
    simp only
    rw [List.drop_of_length_le (by omega)]
  | succ k ih =>
    obtain ⟨f, rfl⟩ : ∃ f, fuel = f + 1 := ⟨fuel - 1, by omega⟩
    have hj : j < buf.length := by omega
    unfold pullUntilEmpty
    rw [pacing_pull_slow m n j buf hm hn (by omega) hlen, List.getElem?_eq_getElem hj]
    simp only
    rw [ih (j + 1) f (by omega) (by omega)]
    simp only
    rw [List.drop_eq_getElem_cons hj]

/-- C9. Independent pacing: for every capacity `maxSize ≥ 2` and values `vs` with
at most `maxSize - 1` elements, when two consumers `X` and `Y` are registered on
a fresh buffer before any push, `X` pulls until `ok = false` after every push
and `Y` pulls until `ok = false` only after the last push, then every push
returns true and both consumers receive exactly `vs`, in order. The loops
"pull until `ok = false`" end within `fuel` calls for every `fuel` that is at
least 2 and larger than the number of values. -/
theorem independent_pacing (maxSize fuel : Nat) (vs : List T) (h2 : 2 ≤ maxSize)
    (h32 : maxSize < 4294967296) (hn : vs.length ≤ maxSize - 1) (hf2 : 2 ≤ fuel)
    (hfn : vs.length < fuel) :
    ∃ X Y b1 b2 b3 b4,
      (new maxSize : RingBuffer T).addTail = some (X, b1)
      ∧ b1.addTail = some (Y, b2)
      ∧ X ≠ Y
      ∧ pushDraining X fuel b2 vs = some (List.replicate vs.length true, vs, b3)
      ∧ pullUntilEmpty Y fuel b3 = some (vs, b4) := by
  obtain ⟨f, rfl⟩ : ∃ f, fuel = f + 2 := ⟨fuel - 2, by omega⟩
  have hpush := pacing_push_phase maxSize f ([] : List T) vs h32 (by simp; omega)
  simp only [List.length_nil, List.nil_append, Nat.zero_add] at hpush
  have hdrain := pacing_drain_slow maxSize vs.length vs h32 (by omega) rfl vs.length 0 (f + 2)
    (by omega) hfn
  exact ⟨0, 1, _, _, _, _, rfl, rfl, by decide, hpush, hdrain⟩

/-- Witness of C9: capacity 4 and three values. -/
theorem independent_pacing_witness :
    ∃ X Y b1 b2 b3 b4,
      (new 4 : RingBuffer Nat).addTail = some (X, b1)
      ∧ b1.addTail = some (Y, b2)
      ∧ X ≠ Y
      ∧ pushDraining X 4 b2 [10, 11, 12] = some ([true, true, true], [10, 11, 12], b3)
      ∧ pullUntilEmpty Y 4 b3 = some ([10, 11, 12], b4) :=
  independent_pacing 4 4 [10, 11, 12] (by decide) (by decide) (by decide) (by decide)
    (by decide)

/-! ## The registry -/

theorem Tails.find_store_self (m : Tails) (key v : Nat) :
    Tails.find (Tails.store m key v) key = some v := by
  induction m with
  | nil => simp [Tails.store, Tails.find, List.lookup]
  | cons p rest ih =>
    obtain ⟨k, c⟩ := p
    unfold Tails.store
    split
    · simp [Tails.find, List.lookup]
    · split
      · simp [Tails.find, List.lookup]
      · next h1 h2 =>
        have hne : (key == k) = false := by simpa using h2
        simp only [Tails.find, List.lookup, hne]
        exact ih

theorem Tails.find_store_ne (m : Tails) (key v k1 : Nat) (h : k1 ≠ key) :
    Tails.find (Tails.store m key v) k1 = Tails.find m k1 := by
  have hne : (k1 == key) = false := by simpa using h
  induction m with
  | nil => simp [Tails.store, Tails.find, List.lookup, hne]
  | cons p rest ih =>
    obtain ⟨k, c⟩ := p
    unfold Tails.store
    split
    · simp [Tails.find, List.lookup, hne]
    · split
      · next h1 h2 =>
        subst h2
        simp [Tails.find, List.lookup, hne]
      · simp only [Tails.find, List.lookup]
        split
        · rfl
        · exact ih

theorem Tails.mem_store {m : Tails} {key v : Nat} {p : Nat × Nat}
    (h : p ∈ Tails.store m key v) : p = (key, v) ∨ p ∈ m := by
  induction m with
  | nil =>
    simp only [Tails.store, List.mem_singleton] at h
    exact Or.inl h
  | cons q rest ih =>
    obtain ⟨k, c⟩ := q
    unfold Tails.store at h
    split at h
    · rcases List.mem_cons.mp h with h1 | h1
      · exact Or.inl h1
      · exact Or.inr h1
    · split at h
      · rcases List.mem_cons.mp h with h1 | h1
        · exact Or.inl h1
        · exact Or.inr (List.mem_cons_of_mem _ h1)
      · rcases List.mem_cons.mp h with h1 | h1
        · exact Or.inr (h1 ▸ List.mem_cons_self _ _)
        · rcases ih h1 with h2 | h2
          · exact Or.inl h2
          · exact Or.inr (List.mem_cons_of_mem _ h2)

theorem Tails.mem_of_find {m : Tails} {key c : Nat} (h : Tails.find m key = some c) :
    (key, c) ∈ m := by
  induction m with
  | nil => simp [Tails.find, List.lookup] at h
  | cons q rest ih =>
    obtain ⟨k, c1⟩ := q
    simp only [Tails.find, List.lookup] at h
    split at h
    · next heq =>
      have hk : key = k := by simpa using heq
      simp only [Option.some.injEq] at h
      subst hk h
      exact List.mem_cons_self _ _
    · exact List.mem_cons_of_mem _ (ih h)

theorem Tails.index_of_find {m : Tails} {key c : Nat} (h : Tails.find m key = some c) :
    Tails.index m key = m := by
  unfold Tails.index
  rw [h]

theorem Tails.load_of_find {m : Tails} {key c : Nat} (h : Tails.find m key = some c) :
    Tails.load m key = c := by
  unfold Tails.load
  rw [h]
  rfl

theorem Tails.mem_erase {m : Tails} {key : Nat} {p : Nat × Nat}
    (h : p ∈ Tails.erase m key) : p ∈ m := by
  unfold Tails.erase at h
  exact (List.mem_filter.mp h).1

/-! ## The convergence step -/

theorem updateTailLoop_some {size tail : Nat} {l : Tails} {init cur : Nat}
    (h : updateTailLoop size tail l init = some cur) :
    (cur = init ∨ ∃ p ∈ l, cur = if p.2 < tail then u64 (p.2 + size) else p.2)
    ∧ cur ≤ init
    ∧ (∀ p ∈ l, p.2 ≠ tail ∧ cur ≤ if p.2 < tail then u64 (p.2 + size) else p.2) := by
  induction l generalizing init with
  | nil =>
    simp only [updateTailLoop, Option.some.injEq] at h
    exact ⟨Or.inl h.symm, by omega, by simp⟩
  | cons q rest ih =>
    obtain ⟨k, c⟩ := q
    unfold updateTailLoop at h
    split at h
    · exact absurd h (by simp)
    · next hne =>
      simp only at h
      obtain ⟨h1, h2, h3⟩ := ih h
      generalize hu : (if c < tail then u64 (c + size) else c) = u at h h1 h2
      have hmin : (if u < init then u else init) ≤ u ∧ (if u < init then u else init) ≤ init
          ∧ ((if u < init then u else init) = u ∨ (if u < init then u else init) = init) := by
        split <;> omega
      generalize (if u < init then u else init) = i1 at h1 h2 hmin
      refine ⟨?_, by omega, ?_⟩
      · rcases h1 with h1 | ⟨p, hp, h1⟩
        · rcases hmin.2.2 with h4 | h4
          · exact Or.inr ⟨(k, c), List.mem_cons_self _ _, by simp only [hu]; omega⟩
          · exact Or.inl (by omega)
        · exact Or.inr ⟨p, List.mem_cons_of_mem _ hp, h1⟩
      · intro p hp
        rcases List.mem_cons.mp hp with h4 | h4
        · subst h4
          exact ⟨hne, by simp only [hu]; omega⟩
        · exact h3 p h4

theorem dist_le_of_unwrap_le {m h t c1 c2 : Nat} (hh : h < m) (ht : t < m) (h1 : c1 < m)
    (h2 : c2 < m) (hd2 : dist m h c2 ≤ dist m h t)
    (hle : (if c1 < t then c1 + m else c1) ≤ (if c2 < t then c2 + m else c2)) :
    dist m h c2 ≤ dist m h c1 := by
  unfold dist at *
  split_ifs at * <;> omega

theorem updateTail_cases (b : RingBuffer T) (hs : b.m_size < 4294967296)
    (hc : ∀ p ∈ b.m_tails, p.2 < b.m_size) :
    (updateTail b = b)
    ∨ (∃ p ∈ b.m_tails, updateTail b = { b with m_tail := p.2 }
        ∧ ∀ q ∈ b.m_tails, q.2 ≠ b.m_tail
          ∧ (if p.2 < b.m_tail then p.2 + b.m_size else p.2)
              ≤ (if q.2 < b.m_tail then q.2 + b.m_size else q.2)) := by
  have hu : ∀ q ∈ b.m_tails, (if q.2 < b.m_tail then u64 (q.2 + b.m_size) else q.2)
      = (if q.2 < b.m_tail then q.2 + b.m_size else q.2) := by
    intro q hq
    have := hc q hq
    rw [u64_of_lt (by omega)]
  unfold updateTail
  split
  · exact Or.inl rfl
  · next cur hloop =>
    split
    · exact Or.inl rfl
    · next hne =>
      obtain ⟨h1, _, h3⟩ := updateTailLoop_some hloop
      rcases h1 with h1 | ⟨p, hp, h1⟩
      · exact absurd h1 hne
      · right
        rw [hu p hp] at h1
        have hpm := hc p hp
        refine ⟨p, hp, ?_, ?_⟩
        · have : (if cur ≥ b.m_size then cur % b.m_size else cur) = p.2 := by
            rw [h1]
            by_cases hlt : p.2 < b.m_tail
            · simp only [hlt, if_true]
              rw [if_pos (by omega), Nat.add_mod_right, Nat.mod_eq_of_lt hpm]
            · simp only [hlt, if_false]
              rw [if_neg (by omega)]
          simp only [this]
        · intro q hq
          obtain ⟨h4, h5⟩ := h3 q hq
          rw [hu q hq, h1] at h5
          exact ⟨h4, h5⟩

theorem updateTail_tail (b : RingBuffer T) (hs : b.m_size < 4294967296)
    (hh : b.m_head < b.m_size) (ht : b.m_tail < b.m_size)
    (hc : ∀ p ∈ b.m_tails,
      p.2 < b.m_size ∧ dist b.m_size b.m_head p.2 ≤ dist b.m_size b.m_head b.m_tail) :
    (updateTail b).m_tail < b.m_size
    ∧ dist b.m_size b.m_head (updateTail b).m_tail ≤ dist b.m_size b.m_head b.m_tail
    ∧ ∀ p ∈ b.m_tails,
        dist b.m_size b.m_head p.2 ≤ dist b.m_size b.m_head (updateTail b).m_tail := by
  rcases updateTail_cases b hs (fun p hp => (hc p hp).1) with h | ⟨p, hp, h, hmin⟩
  · rw [h]
    exact ⟨ht, Nat.le_refl _, fun p hp => (hc p hp).2⟩
  · rw [h]
    refine ⟨(hc p hp).1, (hc p hp).2, ?_⟩
    intro q hq
    exact dist_le_of_unwrap_le hh ht (hc p hp).1 (hc q hq).1 (hc q hq).2 (hmin q hq).2

theorem HistInv_updateTail {b : RingBuffer T} {H : List T} (h : HistInv b H) :
    HistInv (updateTail b) H := by
  have hh : b.m_head < b.m_size := by
    rw [h.head_eq]
    exact Nat.mod_lt _ h.size_pos
  obtain ⟨h1, h2, h3⟩ := updateTail_tail b h.size_lt hh h.tail_lt h.cursors
  refine ⟨?_, ?_, ?_, ?_, ?_, ?_, ?_, ?_⟩
  · simpa using h.size_pos
  · simpa using h.size_lt
  · simpa using h.head_eq
  · simpa using h.buf_len
  · simpa using h.slots
  · simpa using h1
  · simp only [updateTail_m_size, updateTail_m_head]
    exact Nat.le_trans h2 h.tail_le
  · simp only [updateTail_m_size, updateTail_m_head, updateTail_m_tails]
    intro p hp
    exact ⟨(h.cursors p hp).1, h3 p hp⟩

/-! ## The history invariant -/

theorem dist_next_of_le {m h t c : Nat} (ht : t < m) (hc : c < m)
    (hne : (if h + 1 = m then 0 else h + 1) ≠ t) (hle : dist m h c ≤ dist m h t) :
    dist m (if h + 1 = m then 0 else h + 1) c = dist m h c + 1 := by
  unfold dist at *
  split_ifs at * <;> omega

theorem dist_succ_cursor {m h c : Nat} (hh : h < m) (hc : c < m) (hne : c ≠ h) :
    dist m h (if c + 1 = m then 0 else c + 1) + 1 = dist m h c
    ∧ (if c + 1 = m then 0 else c + 1) < m := by
  unfold dist
  split_ifs <;> omega

theorem mod_ne_of_lt_of_lt {i L m : Nat} (h1 : i < L) (h2 : L < i + m) : i % m ≠ L % m := by
  intro h
  have hd : m ∣ L - i := (Nat.modEq_iff_dvd' (Nat.le_of_lt h1)).mp h
  have := Nat.le_of_dvd (by omega) hd
  omega

theorem sub_dist_mod {L m c : Nat} (hm : 1 ≤ m) (hc : c < m)
    (hle : dist m (L % m) c ≤ L) : (L - dist m (L % m) c) % m = c := by
  have hdm := Nat.div_add_mod L m
  have hlt := Nat.mod_lt L hm
  generalize L % m = h at *
  generalize hq : L / m = q at *
  unfold dist at *
  split_ifs at * with h1
  · cases q with
    | zero => simp at hdm; omega
    | succ q =>
      have : L - (m - c + h) = c + m * q := by
        rw [Nat.mul_succ] at hdm
        omega
      rw [this, Nat.add_mul_mod_self_left, Nat.mod_eq_of_lt hc]
  · have : L - (h - c) = c + m * q := by omega
    rw [this, Nat.add_mul_mod_self_left, Nat.mod_eq_of_lt hc]

theorem push_cases (b : RingBuffer T) (v : T) :
    (b.next b.m_head = b.m_tail ∧ b.push v = (false, b))
    ∨ (b.next b.m_head ≠ b.m_tail ∧ b.push v = (true, { b with
        m_buffer := if b.m_buffer.length ≤ b.m_head then b.m_buffer ++ [v]
                    else b.m_buffer.set b.m_head v,
        m_head := b.next b.m_head })) := by
  unfold push
  by_cases h : b.next b.m_head = b.m_tail
  · exact Or.inl ⟨h, by simp only [h, if_true]⟩
  · exact Or.inr ⟨h, by simp only [h, if_false]⟩

theorem HistInv_new (n : Nat) (h1 : 1 ≤ n) (h2 : n < 4294967296) :
    HistInv (new n : RingBuffer T) [] := by
  refine ⟨h1, h2, ?_, ?_, ?_, ?_, ?_, ?_⟩
  · simp [new]
  · simp [new]
  · intro i hi
    simp at hi
  · exact h1
  · simp [new, dist]
  · intro p hp
    simp [new] at hp

theorem HistInv_head_lt {b : RingBuffer T} {H : List T} (h : HistInv b H) :
    b.m_head < b.m_size := by
  rw [h.head_eq]
  exact Nat.mod_lt _ h.size_pos

theorem HistInv_push {b : RingBuffer T} {H : List T} (h : HistInv b H) (v : T)
    (hne : b.next b.m_head ≠ b.m_tail) :
    HistInv ({ b with
        m_buffer := if b.m_buffer.length ≤ b.m_head then b.m_buffer ++ [v]
                    else b.m_buffer.set b.m_head v,
        m_head := b.next b.m_head }) (H ++ [v]) := by
  have hh := HistInv_head_lt h
  have hn := next_of_lt b hh h.size_lt
  have hlen := h.buf_len
  have hhead := h.head_eq
  have hnext : b.next b.m_head = (H.length + 1) % b.m_size := by
    unfold next
    rw [u64_of_lt (by have := h.size_lt; omega), hhead, Nat.mod_add_mod]
  rw [hn] at hne
  have hsmall : H.length < b.m_size → b.m_head = H.length := fun hlt => by
    rw [hhead]
    exact Nat.mod_eq_of_lt hlt
  refine ⟨h.size_pos, h.size_lt, ?_, ?_, ?_, h.tail_lt, ?_, ?_⟩
  · simp only [List.length_append, List.length_singleton]
    exact hnext
  · simp only [List.length_append, List.length_singleton]
    split
    · rw [List.length_append, List.length_singleton]
      omega
    · rw [List.length_set]
      omega
  · intro i hi hle
    simp only [List.length_append, List.length_singleton] at hi hle
    simp only
    by_cases hiL : i = H.length
    · subst hiL
      rw [← hhead, List.getElem?_append_right (Nat.le_refl _)]
      simp only [Nat.sub_self, List.getElem?_cons_zero]
      split
      · next hle1 =>
        have : b.m_buffer.length = b.m_head := by omega
        rw [← this]
        simp
      · rw [List.getElem?_set_self (by omega)]
    · have hi1 : i < H.length := by omega
      have hmod := mod_ne_of_lt_of_lt hi1 (by omega : H.length < i + b.m_size)
      rw [← hhead] at hmod
      have hslot := h.slots i hi1 (by omega)
      rw [List.getElem?_append_left hi1, ← hslot]
      have hin : i % b.m_size < b.m_buffer.length := by
        by_contra hcon
        rw [List.getElem?_eq_none (by omega)] at hslot
        rw [List.getElem?_eq_getElem hi1] at hslot
        exact absurd hslot (by simp)
      split
      · rw [List.getElem?_append_left hin]
      · rw [List.getElem?_set_ne (fun e => hmod e.symm)]
  · simp only [List.length_append, List.length_singleton]
    rw [hn, dist_next_of_le h.tail_lt h.tail_lt hne (Nat.le_refl _)]
    have := h.tail_le
    omega
  · intro p hp
    simp only
    obtain ⟨hp1, hp2⟩ := h.cursors p hp
    refine ⟨hp1, ?_⟩
    rw [hn, dist_next_of_le h.tail_lt hp1 hne hp2,
      dist_next_of_le h.tail_lt h.tail_lt hne (Nat.le_refl _)]
    omega

theorem HistInv_cursor {b : RingBuffer T} {H : List T} (h : HistInv b H) {key c : Nat}
    (hf : Tails.find b.m_tails key = some c) :
    c < b.m_size ∧ dist b.m_size b.m_head c ≤ H.length
    ∧ (b.sizeTail key).1 = dist b.m_size b.m_head c ∧ (b.sizeTail key).2 = b := by
  obtain ⟨h1, h2⟩ := h.cursors (key, c) (Tails.mem_of_find hf)
  have hh := HistInv_head_lt h
  refine ⟨h1, Nat.le_trans h2 h.tail_le, ?_, ?_⟩
  · unfold sizeTail
    simp only [Tails.index_of_find hf, Tails.load_of_find hf]
    exact size2_eq_dist b hh h1 h.size_lt
  · unfold sizeTail
    simp only [Tails.index_of_find hf]

theorem HistInv_store {b : RingBuffer T} {H : List T} (h : HistInv b H) (key c : Nat)
    (hc : c < b.m_size)
    (hd : dist b.m_size b.m_head c ≤ dist b.m_size b.m_head b.m_tail) :
    HistInv { b with m_tails := Tails.store b.m_tails key c } H := by
  refine ⟨h.size_pos, h.size_lt, h.head_eq, h.buf_len, h.slots, h.tail_lt, h.tail_le, ?_⟩
  intro p hp
  rcases Tails.mem_store hp with h1 | h1
  · subst h1
    exact ⟨hc, hd⟩
  · exact h.cursors p h1

theorem pull_spec {b : RingBuffer T} {H : List T} (h : HistInv b H) {key c : Nat}
    (hf : Tails.find b.m_tails key = some c) :
    (c = b.m_head ∧ b.pull key = some (none, b))
    ∨ (c ≠ b.m_head ∧ ∃ x b1, b.pull key = some (some x, b1) ∧ HistInv b1 H
        ∧ H[H.length - dist b.m_size b.m_head c]? = some x
        ∧ b1.m_size = b.m_size ∧ b1.m_head = b.m_head
        ∧ (∃ c1, Tails.find b1.m_tails key = some c1
            ∧ dist b.m_size b.m_head c1 + 1 = dist b.m_size b.m_head c)
        ∧ ∀ k, k ≠ key → Tails.find b1.m_tails k = Tails.find b.m_tails k) := by
  have hh := HistInv_head_lt h
  obtain ⟨hc, hdL, _, _⟩ := HistInv_cursor h hf
  obtain ⟨_, hdt⟩ := h.cursors (key, c) (Tails.mem_of_find hf)
  simp only at hdt
  unfold pull
  simp only [Tails.index_of_find hf, Tails.load_of_find hf, Nat.mod_eq_of_lt hh,
    Nat.mod_eq_of_lt hc]
  by_cases hch : c = b.m_head
  · left
    exact ⟨hch, by simp only [hch, if_true]⟩
  · right
    refine ⟨hch, ?_⟩
    simp only [hch, if_false]
    obtain ⟨hd1, hn⟩ := dist_succ_cursor hh hc hch
    have hd : 1 ≤ dist b.m_size b.m_head c := by omega
    have hm : dist b.m_size b.m_head c ≤ b.m_size := by
      unfold dist
      split <;> omega
    have hmod : (H.length - dist b.m_size b.m_head c) % b.m_size = c := by
      have := sub_dist_mod (L := H.length) h.size_pos hc (by rw [← h.head_eq]; exact hdL)
      rw [← h.head_eq] at this
      exact this
    have hlt : H.length - dist b.m_size b.m_head c < H.length := by omega
    have hslot := h.slots (H.length - dist b.m_size b.m_head c) hlt (by omega)
    rw [hmod, List.getElem?_eq_getElem hlt] at hslot
    rw [hslot]
    simp only
    have hnext : next b c = if c + 1 = b.m_size then 0 else c + 1 := next_of_lt b hc h.size_lt
    refine ⟨_, _, rfl, ?_, List.getElem?_eq_getElem hlt, by simp, by simp, ?_, ?_⟩
    · apply HistInv_updateTail
      apply HistInv_store h
      · show next b c < b.m_size
        rw [hnext]; exact hn
      · show dist b.m_size b.m_head (next b c) ≤ _
        rw [hnext]; omega
    · refine ⟨next b c, ?_, ?_⟩
      · simp only [updateTail_m_tails]
        exact Tails.find_store_self _ _ _
      · rw [hnext]; exact hd1
    · intro k hk
      simp only [updateTail_m_tails]
      exact Tails.find_store_ne _ _ _ _ hk

theorem addTailLoop_find {m : Tails} {fuel i r : Nat} (h : addTailLoop m fuel i = some r) :
    Tails.find m r = none := by
  induction fuel generalizing i with
  | zero => simp [addTailLoop] at h
  | succ fuel ih =>
    unfold addTailLoop at h
    split at h
    · next hnone =>
      simp only [Option.some.injEq] at h
      rw [← h]; exact hnone
    · exact ih h

theorem addTail_eq {b b1 : RingBuffer T} {i : Nat} (h : b.addTail = some (i, b1)) :
    b1 = { b with m_tails := Tails.store b.m_tails i b.m_tail }
    ∧ Tails.find b.m_tails i = none := by
  unfold addTail at h
  split at h
  · exact absurd h (by simp)
  · next r hloop =>
    simp only [Option.some.injEq, Prod.mk.injEq] at h
    obtain ⟨h1, h2⟩ := h
    subst h1
    exact ⟨h2.symm, addTailLoop_find hloop⟩

theorem HistInv_addTail {b b1 : RingBuffer T} {H : List T} {i : Nat} (h : HistInv b H)
    (ha : b.addTail = some (i, b1)) : HistInv b1 H := by
  rw [(addTail_eq ha).1]
  exact HistInv_store h i b.m_tail h.tail_lt (Nat.le_refl _)

theorem HistInv_removeTail {b : RingBuffer T} {H : List T} (h : HistInv b H) (key : Nat) :
    HistInv (b.removeTail key) H := by
  unfold removeTail
  apply HistInv_updateTail
  exact ⟨h.size_pos, h.size_lt, h.head_eq, h.buf_len, h.slots, h.tail_lt, h.tail_le,
    fun p hp => h.cursors p (Tails.mem_erase hp)⟩

theorem step_push (b : RingBuffer T) (v : T) :
    b.step (.push v) = some ((b.push v).2, .pushed v (b.push v).1) := rfl

theorem step_pull {b b1 : RingBuffer T} {key : Nat} {e : Event T}
    (h : b.step (.pull key) = some (b1, e)) :
    (∃ c, Tails.find b.m_tails key = some c)
    ∧ ∃ r, b.pull key = some (r, b1) ∧ e = .pulled key r := by
  unfold step at h
  split at h
  · next hc =>
    simp only [Option.map_eq_some', Prod.mk.injEq] at h
    obtain ⟨⟨r, b2⟩, h1, h2, h3⟩ := h
    simp only at h2 h3
    subst h2
    refine ⟨?_, r, h1, h3.symm⟩
    simp only [contract, registered] at hc
    exact Option.isSome_iff_exists.mp hc
  · exact absurd h (by simp)

theorem step_pull_of {b b1 : RingBuffer T} {key c : Nat} {r : Option T}
    (hf : Tails.find b.m_tails key = some c) (hp : b.pull key = some (r, b1)) :
    b.step (.pull key) = some (b1, .pulled key r) := by
  unfold step
  have hc : b.contract (.pull key) = true := by
    simp only [contract, registered, hf, Option.isSome_some]
  rw [if_pos hc]
  simp only [hp, Option.map_some']

theorem pushedValues_cons (e : Event T) (es : List (Event T)) :
    pushedValues (e :: es) = pushedValues [e] ++ pushedValues es := by
  cases e with
  | pushed v ok => cases ok <;> simp [pushedValues]
  | added key => simp [pushedValues]
  | removed key => simp [pushedValues]
  | pulled key r => simp [pushedValues]
  | pulledTail key vs => simp [pushedValues]

theorem HistInv_step {b b1 : RingBuffer T} {H : List T} {op : Op T} {e : Event T}
    (h : HistInv b H) (hs : op.isSingle = true) (hstep : b.step op = some (b1, e)) :
    HistInv b1 (H ++ pushedValues [e]) := by
  cases op with
  | push v =>
    rw [step_push] at hstep
    simp only [Option.some.injEq, Prod.mk.injEq] at hstep
    obtain ⟨h1, h2⟩ := hstep
    subst h1 h2
    rcases push_cases b v with ⟨_, hp⟩ | ⟨hne, hp⟩
    · rw [hp]
      simpa [pushedValues] using h
    · rw [hp]
      simpa [pushedValues] using HistInv_push h v hne
  | addTail =>
    unfold step at hstep
    split at hstep
    · simp only [Option.map_eq_some', Prod.mk.injEq] at hstep
      obtain ⟨⟨i, b2⟩, h1, h2, h3⟩ := hstep
      simp only at h2 h3
      subst h2 h3
      simpa [pushedValues] using HistInv_addTail h h1
    · exact absurd hstep (by simp)
  | removeTail key =>
    unfold step at hstep
    split at hstep
    · simp only [Option.some.injEq, Prod.mk.injEq] at hstep
      obtain ⟨h1, h2⟩ := hstep
      subst h1 h2
      simpa [pushedValues] using HistInv_removeTail h key
    · exact absurd hstep (by simp)
  | pull key =>
    obtain ⟨⟨c, hf⟩, r, hp, he⟩ := step_pull hstep
    subst he
    simp only [pushedValues, List.append_nil]
    rcases pull_spec h hf with ⟨_, hp1⟩ | ⟨_, x, b2, hp1, hinv, _⟩
    · rw [hp1] at hp
      simp only [Option.some.injEq, Prod.mk.injEq] at hp
      rw [← hp.2]; exact h
    · rw [hp1] at hp
      simp only [Option.some.injEq, Prod.mk.injEq] at hp
      rw [← hp.2]; exact hinv
  | pullTail key length => simp [Op.isSingle] at hs
  | pullTailAll key => simp [Op.isSingle] at hs

theorem HistInv_run {b b1 : RingBuffer T} {H : List T} {ops : List (Op T)}
    {es : List (Event T)} (h : HistInv b H) (hs : ∀ op ∈ ops, op.isSingle = true)
    (hr : run b ops = some (b1, es)) : HistInv b1 (H ++ pushedValues es) := by
  induction ops generalizing b H es with
  | nil =>
    simp only [run, Option.some.injEq, Prod.mk.injEq] at hr
    obtain ⟨h1, h2⟩ := hr
    subst h1 h2
    simpa [pushedValues] using h
  | cons op ops ih =>
    obtain ⟨b2, e, es1, hstep, hrun, hes⟩ := run_cons hr
    subst hes
    have h1 := HistInv_step h (hs op (List.mem_cons_self _ _)) hstep
    have h2 := ih h1 (fun o ho => hs o (List.mem_cons_of_mem _ ho)) hrun
    rw [pushedValues_cons, ← List.append_assoc]
    exact h2

/-- Without bulk pulls every cursor, `head` and the converged tail stay below
the capacity. -/
theorem in_range_without_pullTail {n : Nat} {ops : List (Op T)} {b : RingBuffer T}
    {es : List (Event T)} (h1 : 1 ≤ n) (h2 : n < 4294967296)
    (hs : ∀ op ∈ ops, op.isSingle = true) (hr : run (new n) ops = some (b, es)) :
    b.m_head < b.m_size ∧ b.m_tail < b.m_size ∧ ∀ p ∈ b.m_tails, p.2 < b.m_size := by
  have hinv := HistInv_run (HistInv_new n h1 h2) hs hr
  exact ⟨HistInv_head_lt hinv, hinv.tail_lt, fun p hp => (hinv.cursors p hp).1⟩

/-! ## C4: FIFO per consumer -/

theorem lastN_length (k : Nat) (l : List T) (h : k ≤ l.length) : (lastN k l).length = k := by
  unfold lastN
  rw [List.length_drop]
  omega

theorem lastN_append_singleton (k : Nat) (l : List T) (v : T) (h : k ≤ l.length) :
    lastN (k + 1) (l ++ [v]) = lastN k l ++ [v] := by
  unfold lastN
  rw [List.length_append, List.length_singleton,
    show l.length + 1 - (k + 1) = l.length - k from by omega,
    List.drop_append_of_le_length (by omega)]

theorem lastN_of_getElem (k : Nat) (l : List T) (x : T) (h1 : 1 ≤ k) (h2 : k ≤ l.length)
    (hx : l[l.length - k]? = some x) : lastN k l = x :: lastN (k - 1) l := by
  unfold lastN
  have hlt : l.length - k < l.length := by omega
  rw [List.getElem?_eq_getElem hlt] at hx
  simp only [Option.some.injEq] at hx
  rw [List.drop_eq_getElem_cons hlt, hx,
    show l.length - (k - 1) = l.length - k + 1 from by omega]

theorem isPushOrPull_congr {f g : Nat → Bool} (h : ∀ k, f k = g k) (op : Op T) :
    op.isPushOrPull f = op.isPushOrPull g := by
  cases op <;> simp [Op.isPushOrPull, h]

theorem fifo_run (id : Nat) (ops : List (Op T)) :
    ∀ (b : RingBuffer T) (H : List T) (c : Nat), HistInv b H →
      Tails.find b.m_tails id = some c →
      (∀ op ∈ ops, op.isPushOrPull b.registered = true) →
      ∃ b1 es c1, run b ops = some (b1, es) ∧ HistInv b1 (H ++ pushedValues es)
        ∧ Tails.find b1.m_tails id = some c1
        ∧ received id es ++ lastN (dist b1.m_size b1.m_head c1) (H ++ pushedValues es)
            = lastN (dist b.m_size b.m_head c) H ++ pushedValues es := by
  induction ops with
  | nil =>
    intro b H c h hf _
    exact ⟨b, [], c, rfl, by simpa [pushedValues] using h, hf, by simp [received, pushedValues]⟩
  | cons op ops ih =>
    intro b H c h hf hops
    have hop := hops op (List.mem_cons_self _ _)
    have hrest : ∀ o ∈ ops, o.isPushOrPull b.registered = true :=
      fun o ho => hops o (List.mem_cons_of_mem _ ho)
    obtain ⟨hc, hdL, _, _⟩ := HistInv_cursor h hf
    obtain ⟨_, hdt⟩ := h.cursors (id, c) (Tails.mem_of_find hf)
    simp only at hdt
    have hh := HistInv_head_lt h
    cases op with
    | push v =>
      rcases push_cases b v with ⟨_, hp⟩ | ⟨hne, hp⟩
      · obtain ⟨b1, es, c1, hrun, hinv, hf1, heq⟩ := ih b H c h hf hrest
        refine ⟨b1, .pushed v false :: es, c1, ?_, ?_, hf1, ?_⟩
        · unfold run
          rw [step_push, hp]
          simp only [hrun]
        · simpa [pushedValues] using hinv
        · simpa [pushedValues, received] using heq
      · have hinv1 := HistInv_push h v hne
        have hn := next_of_lt b hh h.size_lt
        obtain ⟨b1, es, c1, hrun, hinv, hf1, heq⟩ := ih _ (H ++ [v]) c hinv1 hf hrest
        simp only at heq
        rw [hn] at hne
        rw [hn, dist_next_of_le h.tail_lt hc hne hdt, lastN_append_singleton _ _ _ hdL] at heq
        refine ⟨b1, .pushed v true :: es, c1, ?_, ?_, hf1, ?_⟩
        · unfold run
          rw [step_push, hp]
          simp only [hrun]
        · simpa [pushedValues] using hinv
        · simpa [pushedValues, received] using heq
    | pull key =>
      simp only [Op.isPushOrPull, registered] at hop
      obtain ⟨ck, hfk⟩ := Option.isSome_iff_exists.mp hop
      rcases pull_spec h hfk with ⟨_, hp⟩ | ⟨hne, x, b2, hp, hinv2, hx, hsz, hhd, ⟨c2, hf2, hd2⟩, hoth⟩
      · obtain ⟨b1, es, c1, hrun, hinv, hf1, heq⟩ := ih b H c h hf hrest
        refine ⟨b1, .pulled key none :: es, c1, ?_, ?_, hf1, ?_⟩
        · unfold run
          rw [step_pull_of hfk hp]
          simp only [hrun]
        · simpa [pushedValues] using hinv
        · simpa [pushedValues, received] using heq
      · have hreg : ∀ k, b2.registered k = b.registered k := by
          intro k
          unfold registered
          by_cases hk : k = key
          · subst hk
            rw [hf2, hfk]
            rfl
          · rw [hoth k hk]
        have hrest2 : ∀ o ∈ ops, o.isPushOrPull b2.registered = true := by
          intro o ho
          rw [isPushOrPull_congr hreg o]
          exact hrest o ho
        by_cases hk : key = id
        · subst hk
          rw [hf] at hfk
          simp only [Option.some.injEq] at hfk
          subst hfk
          obtain ⟨b1, es, c1, hrun, hinv, hf1, heq⟩ := ih b2 H c2 hinv2 hf2 hrest2
          rw [hsz, hhd] at heq
          refine ⟨b1, .pulled key (some x) :: es, c1, ?_, ?_, hf1, ?_⟩
          · unfold run
            rw [step_pull_of hf hp]
            simp only [hrun]
          · simpa [pushedValues] using hinv
          · rw [lastN_of_getElem _ _ x (by omega) hdL hx,
              show dist b.m_size b.m_head c - 1 = dist b.m_size b.m_head c2 from by omega]
            simpa [pushedValues, received] using heq
        · have hfid : Tails.find b2.m_tails id = some c := by
            rw [hoth id (fun e => hk e.symm)]
            exact hf
          obtain ⟨b1, es, c1, hrun, hinv, hf1, heq⟩ := ih b2 H c hinv2 hfid hrest2
          rw [hsz, hhd] at heq
          refine ⟨b1, .pulled key (some x) :: es, c1, ?_, ?_, hf1, ?_⟩
          · unfold run
            rw [step_pull_of hfk hp]
            simp only [hrun]
          · simpa [pushedValues] using hinv
          · simpa [pushedValues, received, hk] using heq
    | addTail => simp [Op.isPushOrPull] at hop
    | removeTail key => simp [Op.isPushOrPull] at hop
    | pullTail key length => simp [Op.isPushOrPull] at hop
    | pullTailAll key => simp [Op.isPushOrPull] at hop

theorem dist_lt {m h t : Nat} (hh : h < m) (ht : t < m) : dist m h t < m := by
  unfold dist
  split <;> omega

theorem size_eq_dist {b : RingBuffer T} {H : List T} (h : HistInv b H) :
    b.size = dist b.m_size b.m_head b.m_tail := by
  have hh := HistInv_head_lt h
  unfold size
  rw [size2_eq_dist b hh h.tail_lt h.size_lt]
  have := dist_lt hh h.tail_lt
  have := h.size_lt
  omega

theorem window_eq_lastN {b : RingBuffer T} {H : List T} (h : HistInv b H) (i : Nat)
    (hi : i < b.size) :
    b.m_buffer[(b.m_tail + i) % b.m_size]? = (lastN b.size H)[i]? := by
  have hh := HistInv_head_lt h
  have hsz := size_eq_dist h
  have hd := dist_lt hh h.tail_lt
  have hle := h.tail_le
  have hmod : (H.length - dist b.m_size b.m_head b.m_tail) % b.m_size = b.m_tail := by
    have := sub_dist_mod (L := H.length) h.size_pos h.tail_lt (by rw [← h.head_eq]; exact hle)
    rw [← h.head_eq] at this
    exact this
  rw [hsz] at hi ⊢
  have hidx : (b.m_tail + i) % b.m_size
      = (H.length - dist b.m_size b.m_head b.m_tail + i) % b.m_size := by
    conv_lhs => rw [← hmod]
    exact Nat.mod_add_mod _ _ _
  unfold lastN
  rw [List.getElem?_drop, hidx]
  exact h.slots (H.length - dist b.m_size b.m_head b.m_tail + i) (by omega) (by omega)

/-- C4. FIFO per consumer. Let `s` be a state reached from a fresh buffer by
`push`, `addTail`, `removeTail` and single-item `pull` calls, let `addTail`
register consumer `id` there, and let `Q` be the `size()` values most recently
pushed successfully before the registration followed by every value pushed
successfully afterwards. Then every later sequence of pushes and of single-item
pulls by registered consumers runs to its end, the values returned to `id` by
its successful pulls are, in order, a prefix of `Q`, and the number of values
received plus `sizeTail(id)` is the length of `Q`. The first `size()` elements
of `Q` are the contents of the slots from the converged tail up to `head`. -/
theorem fifo_per_consumer (n : Nat) (hn1 : 1 ≤ n) (hn2 : n < 4294967296)
    (ops1 : List (Op T)) (hops1 : ∀ op ∈ ops1, op.isSingle = true)
    (s : RingBuffer T) (es1 : List (Event T)) (hrun1 : run (new n) ops1 = some (s, es1))
    (id : Nat) (s0 : RingBuffer T) (hadd : s.addTail = some (id, s0))
    (ops2 : List (Op T)) (hops2 : ∀ op ∈ ops2, op.isPushOrPull s0.registered = true) :
    ∃ s1 es2, run s0 ops2 = some (s1, es2)
      ∧ (lastN s.size (pushedValues es1)).length = s.size
      ∧ (∀ i, i < s.size →
          s.m_buffer[(s.m_tail + i) % s.m_size]? = (lastN s.size (pushedValues es1))[i]?)
      ∧ received id es2 <+: lastN s.size (pushedValues es1) ++ pushedValues es2
      ∧ (received id es2).length + (s1.sizeTail id).1
          = (lastN s.size (pushedValues es1) ++ pushedValues es2).length := by
  have hinv : HistInv s (pushedValues es1) := by
    simpa using HistInv_run (HistInv_new n hn1 hn2) hops1 hrun1
  have hinv0 := HistInv_addTail hinv hadd
  obtain ⟨hs0, _⟩ := addTail_eq hadd
  have hf : Tails.find s0.m_tails id = some s.m_tail := by
    rw [hs0]
    exact Tails.find_store_self _ _ _
  obtain ⟨s1, es2, c1, hrun, hinv1, hf1, heq⟩ :=
    fifo_run id ops2 s0 (pushedValues es1) s.m_tail hinv0 hf hops2
  have hsz : s0.m_size = s.m_size := by rw [hs0]
  have hhd : s0.m_head = s.m_head := by rw [hs0]
  rw [hsz, hhd, ← size_eq_dist hinv] at heq
  obtain ⟨_, hle1, hst1, _⟩ := HistInv_cursor hinv1 hf1
  have hsize_le : s.size ≤ (pushedValues es1).length := by
    rw [size_eq_dist hinv]
    exact hinv.tail_le
  refine ⟨s1, es2, hrun, lastN_length _ _ hsize_le, window_eq_lastN hinv, ⟨_, heq⟩, ?_⟩
  rw [hst1, ← heq, List.length_append, lastN_length _ _ hle1]

/-- Witness of C4: capacity 4, two values pushed before the registration, then
a pull, a push and a pull. -/
theorem fifo_per_consumer_witness :
    ∃ s1 es2,
      run ({ m_size := 4, m_buffer := [10, 11], m_head := 2, m_tail := 0,
             m_tails := [(0, 0)] } : RingBuffer Nat) [.pull 0, .push 12, .pull 0]
        = some (s1, es2)
      ∧ (lastN (size ({ m_size := 4, m_buffer := [10, 11], m_head := 2, m_tail := 0,
                        m_tails := [] } : RingBuffer Nat))
            (pushedValues [Event.pushed 10 true, Event.pushed 11 true])).length
          = size ({ m_size := 4, m_buffer := [10, 11], m_head := 2, m_tail := 0,
                    m_tails := [] } : RingBuffer Nat)
      ∧ (∀ i, i < size ({ m_size := 4, m_buffer := [10, 11], m_head := 2, m_tail := 0,
                          m_tails := [] } : RingBuffer Nat) →
          [10, 11][(0 + i) % 4]?
            = (lastN (size ({ m_size := 4, m_buffer := [10, 11], m_head := 2, m_tail := 0,
                              m_tails := [] } : RingBuffer Nat))
                (pushedValues [Event.pushed 10 true, Event.pushed 11 true]))[i]?)
      ∧ received 0 es2
          <+: lastN (size ({ m_size := 4, m_buffer := [10, 11], m_head := 2, m_tail := 0,
                             m_tails := [] } : RingBuffer Nat))
                (pushedValues [Event.pushed 10 true, Event.pushed 11 true])
              ++ pushedValues es2
      ∧ (received 0 es2).length + (s1.sizeTail 0).1
          = (lastN (size ({ m_size := 4, m_buffer := [10, 11], m_head := 2, m_tail := 0,
                            m_tails := [] } : RingBuffer Nat))
                (pushedValues [Event.pushed 10 true, Event.pushed 11 true])
              ++ pushedValues es2).length :=
  fifo_per_consumer 4 (by decide) (by decide) [.push 10, .push 11] (by decide)
    { m_size := 4, m_buffer := [10, 11], m_head := 2, m_tail := 0, m_tails := [] }
    [.pushed 10 true, .pushed 11 true] rfl 0
    { m_size := 4, m_buffer := [10, 11], m_head := 2, m_tail := 0, m_tails := [(0, 0)] } rfl
    [.pull 0, .push 12, .pull 0] (by decide)

/-! ## Bulk pulls across the end of the ring

`pullTail` stores `tail + length` as the consumer's cursor without reducing it
modulo the capacity, whereas `pull` stores `next(tail)`. The states below are
reached within the caller contract. -/

/-- C10 (evaluation). After the scenario of the specification at capacity 4,
the cursor of the consumer is 4, which is not below the capacity, while `head`
and the converged tail are 0. -/
theorem cursor_out_of_range_after_pullTail :
    (run (new 4) specScenario).map
        (fun r => (r.1.m_size, r.1.m_head, r.1.m_tail, Tails.find r.1.m_tails 0))
      = some (4, 0, 0, some 4) := by
  rfl

/-- C6 (evaluation). In the state reached by `wrapTwice`, consumer 0 has cursor
5 and `head` is 0; `sizeTail(0)` is `2^64 - 1`, `pullTail(0)` returns no value,
and a single `pull(0)` returns 15 with `ok = true`. -/
theorem pullTail_differs_from_pulls :
    (run (new 4) wrapTwice).map
        (fun r => (Tails.find r.1.m_tails 0, r.1.m_head, (r.1.sizeTail 0).1,
          (r.1.pullTailAll 0).map Prod.fst, (r.1.pull 0).map Prod.fst))
      = some (some 5, 0, 18446744073709551615, some [], some (some 15)) := by
  rfl

/-- C7 (evaluation). In the state reached by `twoConsumers`, the values 10 to 14
were pushed and consumer 0 has received 10 to 13 only, so it has one value
still to receive (`sizeTail(0) = 1`, cursor 4); yet the converged tail equals
`head` and `size()` is 0. -/
theorem converged_tail_passes_slow_consumer :
    (run (new 4) twoConsumers).map
        (fun r => (pushedValues r.2, received 0 r.2, received 1 r.2,
          Tails.find r.1.m_tails 0, Tails.find r.1.m_tails 1, (r.1.sizeTail 0).1,
          r.1.m_head, r.1.m_tail, r.1.size))
      = some ([10, 11, 12, 13, 14], [10, 11, 12, 13], [10, 11, 12, 13, 14],
          some 4, some 1, 1, 1, 1, 0) := by
  rfl

/-- C8 (evaluation). In the state reached by `twoConsumersOn`, slot 0 holds 14,
which was pushed after consumer 0 registered and has not been returned to it;
the next push returns true and overwrites slot 0. -/
theorem push_overwrites_unread_slot :
    (run (new 4) twoConsumersOn).map
        (fun r => (r.1.registered 0, received 0 r.2, r.1.m_head, r.1.m_buffer[0]?,
          (r.1.push 18).1, (r.1.push 18).2.m_buffer[0]?))
      = some (true, [10, 11, 12, 13], 0, some 14, true, some 18) := by
  rfl

/-! ## The registry as a map with increasing keys -/

theorem Tails.store_keys {m : Tails} {key v : Nat} {p : Nat × Nat}
    (h : p ∈ Tails.store m key v) : p.1 = key ∨ p ∈ m := by
  rcases Tails.mem_store h with h1 | h1
  · exact Or.inl (by rw [h1])
  · exact Or.inr h1

theorem Tails.WF_store {m : Tails} (h : Tails.WF m) (key v : Nat) :
    Tails.WF (Tails.store m key v) := by
  unfold Tails.WF at *
  induction m with
  | nil => simp [Tails.store]
  | cons q rest ih =>
    obtain ⟨k, c⟩ := q
    obtain ⟨h1, h2⟩ := List.pairwise_cons.mp h
    unfold Tails.store
    split
    · next hlt =>
      refine List.pairwise_cons.mpr ⟨?_, h⟩
      intro p hp
      rcases List.mem_cons.mp hp with hp1 | hp1
      · rw [hp1]; exact hlt
      · exact Nat.lt_trans hlt (h1 p hp1)
    · split
      · next hnlt heq =>
        subst heq
        exact List.pairwise_cons.mpr ⟨h1, h2⟩
      · next hnlt hne =>
        refine List.pairwise_cons.mpr ⟨?_, ih h2⟩
        intro p hp
        rcases Tails.store_keys hp with hp1 | hp1
        · rw [hp1]; show k < key; omega
        · exact h1 p hp1

theorem Tails.WF_erase {m : Tails} (h : Tails.WF m) (key : Nat) :
    Tails.WF (Tails.erase m key) := by
  unfold Tails.WF Tails.erase at *
  exact List.Pairwise.filter _ h

theorem Tails.find_of_mem {m : Tails} (h : Tails.WF m) {p : Nat × Nat} (hp : p ∈ m) :
    Tails.find m p.1 = some p.2 := by
  unfold Tails.WF at h
  induction m with
  | nil => simp at hp
  | cons q rest ih =>
    obtain ⟨k, c⟩ := q
    obtain ⟨h1, h2⟩ := List.pairwise_cons.mp h
    rcases List.mem_cons.mp hp with hp1 | hp1
    · subst hp1
      simp [Tails.find, List.lookup]
    · have hlt := h1 p hp1
      have hne : (p.1 == k) = false := by
        simp only [beq_eq_false_iff_ne, ne_eq]
        simp only at hlt
        omega
      simp only [Tails.find, List.lookup, hne]
      exact ih h2 hp1

theorem Tails.find_erase_self (m : Tails) (key : Nat) :
    Tails.find (Tails.erase m key) key = none := by
  induction m with
  | nil => rfl
  | cons q rest ih =>
    obtain ⟨k, c⟩ := q
    simp only [Tails.erase, Tails.find] at ih ⊢
    rw [List.filter_cons]
    split
    · next hk =>
      have hne : (key == k) = false := by
        simp only [bne_iff_ne, ne_eq] at hk
        simp only [beq_eq_false_iff_ne, ne_eq]
        exact fun e => hk e.symm
      simp only [List.lookup, hne]
      exact ih
    · exact ih

theorem Tails.find_erase_ne (m : Tails) (key k1 : Nat) (h : k1 ≠ key) :
    Tails.find (Tails.erase m key) k1 = Tails.find m k1 := by
  induction m with
  | nil => rfl
  | cons q rest ih =>
    obtain ⟨k, c⟩ := q
    simp only [Tails.erase, Tails.find] at ih ⊢
    rw [List.filter_cons]
    split
    · next hk =>
      simp only [List.lookup]
      split
      · rfl
      · exact ih
    · next hk =>
      have hkk : k = key := by
        simp only [bne_iff_ne, ne_eq, not_not] at hk
        exact hk
      have hne : (k1 == k) = false := by
        simp only [beq_eq_false_iff_ne, ne_eq]
        rw [hkk]; exact h
      simp only [List.lookup, hne]
      exact ih

/-! ## What the consumer-side calls do to a registered cursor -/

theorem pull_cases {b b1 : RingBuffer T} {key c : Nat} {r : Option T}
    (hf : Tails.find b.m_tails key = some c) (hp : b.pull key = some (r, b1)) :
    (c = b.m_head % b.m_size ∧ r = none ∧ b1 = b)
    ∨ (c ≠ b.m_head % b.m_size ∧ ∃ x, b.m_buffer[c % b.m_size]? = some x ∧ r = some x
        ∧ b1 = updateTail { b with m_tails := Tails.store b.m_tails key (b.next c) }) := by
  unfold pull at hp
  simp only [Tails.index_of_find hf, Tails.load_of_find hf] at hp
  split at hp
  · next heq =>
    simp only [Option.some.injEq, Prod.mk.injEq] at hp
    exact Or.inl ⟨heq, hp.1.symm, hp.2.symm⟩
  · next hne =>
    split at hp
    · exact absurd hp (by simp)
    · next x hx =>
      simp only [Option.some.injEq, Prod.mk.injEq] at hp
      exact Or.inr ⟨hne, x, hx, hp.1.symm, hp.2.symm⟩

theorem pull_returns {b : RingBuffer T} {key c : Nat}
    (hf : Tails.find b.m_tails key = some c)
    (hslot : c ≠ b.m_head % b.m_size → c % b.m_size < b.m_buffer.length) :
    ∃ r b1, b.pull key = some (r, b1) := by
  unfold pull
  simp only [Tails.index_of_find hf, Tails.load_of_find hf]
  split
  · exact ⟨_, _, rfl⟩
  · next hne =>
    rw [List.getElem?_eq_getElem (hslot hne)]
    exact ⟨_, _, rfl⟩

theorem pullTail_cases {b b1 : RingBuffer T} {key c length : Nat} {r : List T}
    (hf : Tails.find b.m_tails key = some c) (hp : b.pullTail key length = some (r, b1)) :
    b.pullBlock c (u64 (c + length)) = some r
    ∧ b1 = updateTail { b with m_tails := Tails.store b.m_tails key (u64 (c + length)) } := by
  unfold pullTail at hp
  simp only [Tails.index_of_find hf, Tails.load_of_find hf] at hp
  split at hp
  · exact absurd hp (by simp)
  · next res hres =>
    simp only [Option.some.injEq, Prod.mk.injEq] at hp
    refine ⟨?_, hp.2.symm⟩
    rw [← hp.1]
    exact hres

theorem pullTail_of_block {b : RingBuffer T} {key c length : Nat} {r : List T}
    (hf : Tails.find b.m_tails key = some c)
    (hb : b.pullBlock c (u64 (c + length)) = some r) :
    b.pullTail key length = some (r,
      updateTail { b with m_tails := Tails.store b.m_tails key (u64 (c + length)) }) := by
  unfold pullTail
  simp only [Tails.index_of_find hf, Tails.load_of_find hf]
  have hb1 : pullBlock { b with m_tails := b.m_tails } c (u64 (c + length)) = some r := hb
  rw [hb1]

theorem pullBlockLoop_spec (b : RingBuffer T) (count start : Nat)
    (h : ∀ i, i < count → (start + i) % b.m_size < b.m_buffer.length) :
    ∃ r, pullBlockLoop b count start = some r ∧ r.length = count
      ∧ ∀ i, i < count → r[i]? = b.m_buffer[(start + i) % b.m_size]? := by
  induction count generalizing start with
  | zero => exact ⟨[], rfl, rfl, fun i hi => absurd hi (by omega)⟩
  | succ count ih =>
    have h0 : start % b.m_size < b.m_buffer.length := by simpa using h 0 (by omega)
    obtain ⟨r, hr, hlen, hel⟩ := ih (start + 1) (fun i hi => by
      have := h (i + 1) (by omega)
      rwa [show start + 1 + i = start + (i + 1) from by omega])
    refine ⟨b.m_buffer[start % b.m_size] :: r, ?_, by simp [hlen], ?_⟩
    · unfold pullBlockLoop
      rw [List.getElem?_eq_getElem h0]
      simp only [hr]
    · intro i hi
      cases i with
      | zero => simp [List.getElem?_eq_getElem h0]
      | succ i =>
        rw [List.getElem?_cons_succ, hel i (by omega),
          show start + 1 + i = start + (i + 1) from by omega]

theorem sizeTail_of_find {b : RingBuffer T} {key c : Nat}
    (hf : Tails.find b.m_tails key = some c) :
    b.sizeTail key = (b.size2 b.m_head c, b) := by
  unfold sizeTail
  simp only [Tails.index_of_find hf, Tails.load_of_find hf]

theorem updateTail_tail_lt (b : RingBuffer T) (h1 : 1 ≤ b.m_size) (ht : b.m_tail < b.m_size) :
    (updateTail b).m_tail < b.m_size := by
  unfold updateTail
  split
  · exact ht
  · split
    · exact ht
    · simp only
      split
      · exact Nat.mod_lt _ h1
      · omega

/-! ## The invariant of every reachable state -/

theorem RangeInv_new (n : Nat) (h1 : 1 ≤ n) (h2 : n < 4294967296) :
    RangeInv (new n : RingBuffer T) :=
  ⟨h1, h2, h1, h1, List.Pairwise.nil, Or.inr ⟨rfl, Nat.le_refl _, fun p hp => by simp [new] at hp⟩⟩

theorem RangeInv_tails {b : RingBuffer T} (h : RangeInv b) (m : Tails) (hwf : Tails.WF m)
    (hc : b.m_buffer.length ≠ b.m_size → ∀ p ∈ m, p.2 ≤ b.m_head) :
    RangeInv { b with m_tails := m } := by
  refine ⟨h.size_pos, h.size_lt, h.head_lt, h.tail_lt, hwf, ?_⟩
  rcases h.storage with hs | ⟨hs1, hs2, _⟩
  · exact Or.inl hs
  · by_cases hfull : b.m_buffer.length = b.m_size
    · exact Or.inl hfull
    · exact Or.inr ⟨hs1, hs2, hc hfull⟩

theorem RangeInv_updateTail {b : RingBuffer T} (h : RangeInv b) : RangeInv (updateTail b) := by
  have ht := updateTail_tail_lt b h.size_pos h.tail_lt
  refine ⟨by simpa using h.size_pos, by simpa using h.size_lt, by simpa using h.head_lt,
    by simpa using ht, by simpa using h.keys, ?_⟩
  rcases h.storage with hs | ⟨hs1, hs2, hs3⟩
  · exact Or.inl (by simpa using hs)
  · right
    simp only [updateTail_m_buffer, updateTail_m_head, updateTail_m_tails]
    refine ⟨hs1, ?_, hs3⟩
    have hlt : ∀ p ∈ b.m_tails, p.2 < b.m_size := fun p hp => by
      have := hs3 p hp
      have := h.head_lt
      omega
    rcases updateTail_cases b h.size_lt hlt with he | ⟨p, hp, he, _⟩
    · rw [he]; exact hs2
    · rw [he]; exact hs3 p hp

theorem RangeInv_push {b : RingBuffer T} (h : RangeInv b) (v : T) :
    RangeInv (b.push v).2 := by
  have hn := next_of_lt b h.head_lt h.size_lt
  rcases push_cases b v with ⟨_, hp⟩ | ⟨hne, hp⟩
  · rw [hp]; exact h
  · rw [hp]
    have hh := h.head_lt
    refine ⟨h.size_pos, h.size_lt, ?_, h.tail_lt, h.keys, ?_⟩
    · show b.next b.m_head < b.m_size
      rw [hn]; split <;> omega
    · show (if b.m_buffer.length ≤ b.m_head then b.m_buffer ++ [v]
          else b.m_buffer.set b.m_head v).length = b.m_size
        ∨ ((if b.m_buffer.length ≤ b.m_head then b.m_buffer ++ [v]
          else b.m_buffer.set b.m_head v).length = b.next b.m_head
          ∧ b.m_tail ≤ b.next b.m_head ∧ ∀ p ∈ b.m_tails, p.2 ≤ b.next b.m_head)
      rw [hn]
      rcases h.storage with hs | ⟨hs1, hs2, hs3⟩
      · left
        rw [if_neg (by omega), List.length_set]
        exact hs
      · rw [if_pos (by omega), List.length_append, List.length_singleton]
        by_cases hw : b.m_head + 1 = b.m_size
        · left; omega
        · right
          rw [if_neg hw]
          refine ⟨by omega, by omega, fun p hp => ?_⟩
          have := hs3 p hp
          omega

theorem RangeInv_store_update {b : RingBuffer T} (h : RangeInv b) (key v : Nat)
    (hv : b.m_buffer.length ≠ b.m_size → v ≤ b.m_head) :
    RangeInv (updateTail { b with m_tails := Tails.store b.m_tails key v }) := by
  apply RangeInv_updateTail
  apply RangeInv_tails h _ (Tails.WF_store h.keys key v)
  intro hfull p hp
  rcases Tails.mem_store hp with h1 | h1
  · rw [h1]; exact hv hfull
  · rcases h.storage with hs | ⟨_, _, hs3⟩
    · exact absurd hs hfull
    · exact hs3 p h1

theorem RangeInv_cursor {b : RingBuffer T} (h : RangeInv b) {key c : Nat}
    (hf : Tails.find b.m_tails key = some c) (hfull : b.m_buffer.length ≠ b.m_size) :
    c ≤ b.m_head ∧ b.m_buffer.length = b.m_head := by
  rcases h.storage with hs | ⟨hs1, _, hs3⟩
  · exact absurd hs hfull
  · exact ⟨hs3 (key, c) (Tails.mem_of_find hf), hs1⟩

theorem RangeInv_pullTail {b b1 : RingBuffer T} (h : RangeInv b) {key c length : Nat}
    {r : List T} (hf : Tails.find b.m_tails key = some c)
    (hlen : length ≤ b.size2 b.m_head c)
    (hp : b.pullTail key length = some (r, b1)) : RangeInv b1 := by
  rw [(pullTail_cases hf hp).2]
  apply RangeInv_store_update h
  intro hfull
  obtain ⟨hc, _⟩ := RangeInv_cursor h hf hfull
  have hh := h.head_lt
  have hs := h.size_lt
  unfold size2 at hlen
  rw [if_neg (by omega)] at hlen
  rw [u64_of_lt (by omega)]
  omega

theorem RangeInv_step {b b1 : RingBuffer T} {op : Op T} {e : Event T}
    (h : RangeInv b) (hstep : b.step op = some (b1, e)) : RangeInv b1 := by
  unfold step at hstep
  split at hstep
  · next hcon =>
    cases op with
    | push v =>
      simp only [Option.some.injEq, Prod.mk.injEq] at hstep
      rw [← hstep.1]
      exact RangeInv_push h v
    | addTail =>
      simp only [Option.map_eq_some', Prod.mk.injEq] at hstep
      obtain ⟨⟨i, b2⟩, h1, h2, _⟩ := hstep
      simp only at h2
      subst h2
      rw [(addTail_eq h1).1]
      apply RangeInv_tails h _ (Tails.WF_store h.keys _ _)
      intro hfull p hp
      rcases h.storage with hs | ⟨_, hs2, hs3⟩
      · exact absurd hs hfull
      · rcases Tails.mem_store hp with h3 | h3
        · rw [h3]; exact hs2
        · exact hs3 p h3
    | removeTail key =>
      simp only [Option.some.injEq, Prod.mk.injEq] at hstep
      rw [← hstep.1]
      unfold removeTail
      apply RangeInv_updateTail
      apply RangeInv_tails h _ (Tails.WF_erase h.keys key)
      intro hfull p hp
      rcases h.storage with hs | ⟨_, _, hs3⟩
      · exact absurd hs hfull
      · exact hs3 p (Tails.mem_erase hp)
    | pull key =>
      simp only [Option.map_eq_some', Prod.mk.injEq] at hstep
      obtain ⟨⟨r, b2⟩, h1, h2, _⟩ := hstep
      simp only at h2
      subst h2
      simp only [contract, registered] at hcon
      obtain ⟨c, hf⟩ := Option.isSome_iff_exists.mp hcon
      rcases pull_cases hf h1 with ⟨_, _, hb⟩ | ⟨hne, x, _, _, hb⟩
      · rw [hb]; exact h
      · rw [hb]
        apply RangeInv_store_update h
        intro hfull
        obtain ⟨hc, _⟩ := RangeInv_cursor h hf hfull
        have hh := h.head_lt
        rw [Nat.mod_eq_of_lt hh] at hne
        rw [next_of_lt b (by omega) h.size_lt, if_neg (by omega)]
        omega
    | pullTail key length =>
      simp only [Option.map_eq_some', Prod.mk.injEq] at hstep
      obtain ⟨⟨r, b2⟩, h1, h2, _⟩ := hstep
      simp only at h2
      subst h2
      simp only [contract, registered, Bool.and_eq_true, decide_eq_true_eq] at hcon
      obtain ⟨c, hf⟩ := Option.isSome_iff_exists.mp hcon.1
      have hlen := hcon.2
      rw [sizeTail_of_find hf] at hlen
      exact RangeInv_pullTail h hf hlen h1
    | pullTailAll key =>
      simp only [Option.map_eq_some', Prod.mk.injEq] at hstep
      obtain ⟨⟨r, b2⟩, h1, h2, _⟩ := hstep
      simp only at h2
      subst h2
      simp only [contract, registered] at hcon
      obtain ⟨c, hf⟩ := Option.isSome_iff_exists.mp hcon
      unfold pullTailAll at h1
      rw [sizeTail_of_find hf] at h1
      exact RangeInv_pullTail h hf (Nat.le_refl _) h1
  · exact absurd hstep (by simp)

theorem RangeInv_run {b b1 : RingBuffer T} {ops : List (Op T)} {es : List (Event T)}
    (h : RangeInv b) (hr : run b ops = some (b1, es)) : RangeInv b1 := by
  induction ops generalizing b es with
  | nil =>
    simp only [run, Option.some.injEq, Prod.mk.injEq] at hr
    rw [← hr.1]; exact h
  | cons op ops ih =>
    obtain ⟨b2, e, es1, hstep, hrun, _⟩ := run_cons hr
    exact ih (RangeInv_step h hstep) hrun

theorem RangeInv_of_reachable {b : RingBuffer T} (h : Reachable b) : RangeInv b := by
  obtain ⟨n, ops, es, h1, h2, hr⟩ := h
  exact RangeInv_run (RangeInv_new n h1 h2) hr

theorem RangeInv_size {b : RingBuffer T} (h : RangeInv b) :
    b.maxSize = b.m_size ∧ b.size = dist b.m_size b.m_head b.m_tail := by
  have hs := h.size_lt
  have hd := dist_lt h.head_lt h.tail_lt
  unfold maxSize size
  rw [size2_eq_dist b h.head_lt h.tail_lt hs]
  exact ⟨Nat.mod_eq_of_lt hs, Nat.mod_eq_of_lt (by omega)⟩

/-! ## C20: the producer-side indices -/

/-- C20. In every reachable state `head` and the converged tail are below
`maxSize`, whatever the consumers did, hence `size()` is at most
`maxSize - 1`. -/
theorem producer_indices_in_range (b : RingBuffer T) (h : Reachable b) :
    b.m_head < b.maxSize ∧ b.m_tail < b.maxSize ∧ b.size ≤ b.maxSize - 1 := by
  have hinv := RangeInv_of_reachable h
  obtain ⟨hm, hsz⟩ := RangeInv_size hinv
  have hd := dist_lt hinv.head_lt hinv.tail_lt
  rw [hm, hsz]
  exact ⟨hinv.head_lt, hinv.tail_lt, by omega⟩

/-- Witness of C20: the state after the scenario of the specification, in which
the consumer's cursor is 4. -/
theorem producer_indices_in_range_witness :
    (0 : Nat) < maxSize ({ m_size := 4, m_buffer := [10, 11, 12, 13], m_head := 0,
                           m_tail := 0, m_tails := [(0, 4)] } : RingBuffer Nat)
    ∧ (0 : Nat) < maxSize ({ m_size := 4, m_buffer := [10, 11, 12, 13], m_head := 0,
                             m_tail := 0, m_tails := [(0, 4)] } : RingBuffer Nat)
    ∧ size ({ m_size := 4, m_buffer := [10, 11, 12, 13], m_head := 0, m_tail := 0,
              m_tails := [(0, 4)] } : RingBuffer Nat)
        ≤ maxSize ({ m_size := 4, m_buffer := [10, 11, 12, 13], m_head := 0, m_tail := 0,
                     m_tails := [(0, 4)] } : RingBuffer Nat) - 1 :=
  producer_indices_in_range
    { m_size := 4, m_buffer := [10, 11, 12, 13], m_head := 0, m_tail := 0, m_tails := [(0, 4)] }
    ⟨4, specScenario, _, by decide, by decide, rfl⟩

/-! ## C16: `isFull` and `isEmpty` -/

/-- C16. In every reachable state `isFull()` is true exactly when
`size() = maxSize - 1`, and `isEmpty()` is true exactly when `size() = 0`. -/
theorem full_empty_agree_with_size (b : RingBuffer T) (h : Reachable b) :
    (b.isFull = true ↔ b.size = b.maxSize - 1) ∧ (b.isEmpty = true ↔ b.size = 0) := by
  have hinv := RangeInv_of_reachable h
  obtain ⟨hm, hsz⟩ := RangeInv_size hinv
  have hh := hinv.head_lt
  have ht := hinv.tail_lt
  have hn := next_of_lt b hh hinv.size_lt
  rw [hm, hsz]
  unfold isFull isEmpty dist
  rw [hn]
  simp only [decide_eq_true_eq]
  constructor
  · split_ifs <;> omega
  · split_ifs <;> omega

/-- Witness of C16: a full buffer of capacity 4 reached by three pushes. -/
theorem full_empty_agree_with_size_witness :
    (isFull ({ m_size := 4, m_buffer := [10, 11, 12], m_head := 3, m_tail := 0,
               m_tails := [] } : RingBuffer Nat) = true
      ↔ size ({ m_size := 4, m_buffer := [10, 11, 12], m_head := 3, m_tail := 0,
                m_tails := [] } : RingBuffer Nat)
          = maxSize ({ m_size := 4, m_buffer := [10, 11, 12], m_head := 3, m_tail := 0,
                       m_tails := [] } : RingBuffer Nat) - 1)
    ∧ (isEmpty ({ m_size := 4, m_buffer := [10, 11, 12], m_head := 3, m_tail := 0,
                  m_tails := [] } : RingBuffer Nat) = true
      ↔ size ({ m_size := 4, m_buffer := [10, 11, 12], m_head := 3, m_tail := 0,
                m_tails := [] } : RingBuffer Nat) = 0) :=
  full_empty_agree_with_size
    { m_size := 4, m_buffer := [10, 11, 12], m_head := 3, m_tail := 0, m_tails := [] }
    ⟨4, [.push 10, .push 11, .push 12], _, by decide, by decide, rfl⟩

/-! ## C18: storage bounds -/

theorem RangeInv_pull_index {b : RingBuffer T} (h : RangeInv b) {key c : Nat}
    (hf : Tails.find b.m_tails key = some c) (hne : c ≠ b.m_head % b.m_size) :
    c % b.m_size < b.m_buffer.length := by
  by_cases hfull : b.m_buffer.length = b.m_size
  · rw [hfull]
    exact Nat.mod_lt _ h.size_pos
  · obtain ⟨hc, hlen⟩ := RangeInv_cursor h hf hfull
    have hh := h.head_lt
    rw [Nat.mod_eq_of_lt hh] at hne
    rw [Nat.mod_eq_of_lt (by omega), hlen]
    omega

theorem RangeInv_block_index {b : RingBuffer T} (h : RangeInv b) {key c length : Nat}
    (hf : Tails.find b.m_tails key = some c) (hlen : length ≤ (b.sizeTail key).1)
    (i : Nat) (hi2 : i < u64 (c + length)) :
    i % b.m_size < b.m_buffer.length := by
  by_cases hfull : b.m_buffer.length = b.m_size
  · rw [hfull]
    exact Nat.mod_lt _ h.size_pos
  · obtain ⟨hc, hbl⟩ := RangeInv_cursor h hf hfull
    have hh := h.head_lt
    have hs := h.size_lt
    rw [sizeTail_of_find hf] at hlen
    simp only [size2] at hlen
    rw [if_neg (by omega)] at hlen
    rw [u64_of_lt (by omega)] at hi2
    rw [Nat.mod_eq_of_lt (by omega), hbl]
    omega

theorem RangeInv_pullTail_returns {b : RingBuffer T} (h : RangeInv b) {key c length : Nat}
    (hf : Tails.find b.m_tails key = some c) (hlen : length ≤ (b.sizeTail key).1) :
    ∃ r b1, b.pullTail key length = some (r, b1) := by
  obtain ⟨r, hr, _, _⟩ := pullBlockLoop_spec b (u64 (c + length) - c) c (fun i hi =>
    RangeInv_block_index h hf hlen (c + i) (by omega))
  exact ⟨r, _, pullTail_of_block hf hr⟩

/-- C18. In every reachable state the assertion `head < maxSize` of `push`
holds, the backing vector has at most `maxSize` elements, and every read
`m_buffer.at(index mod maxSize)` made by `pull` and by `pullBlock` (for a
registered consumer and a length of at most `sizeTail`) addresses a populated
slot, so `pull`, `pullTail(key, length)` and `pullTail(key)` return normally. -/
theorem storage_bounds (b : RingBuffer T) (h : Reachable b) :
    b.m_head < b.m_size
    ∧ b.m_buffer.length ≤ b.m_size
    ∧ (∀ key c, Tails.find b.m_tails key = some c → c ≠ b.m_head % b.m_size →
        c % b.m_size < b.m_buffer.length)
    ∧ (∀ key, b.registered key = true → ∃ r b1, b.pull key = some (r, b1))
    ∧ (∀ key c length, Tails.find b.m_tails key = some c → length ≤ (b.sizeTail key).1 →
        ∀ i, c ≤ i → i < u64 (c + length) → i % b.m_size < b.m_buffer.length)
    ∧ (∀ key length, b.registered key = true → length ≤ (b.sizeTail key).1 →
        ∃ r b1, b.pullTail key length = some (r, b1))
    ∧ (∀ key, b.registered key = true → ∃ r b1, b.pullTailAll key = some (r, b1)) := by
  have hinv := RangeInv_of_reachable h
  have hh := hinv.head_lt
  refine ⟨hh, ?_, ?_, ?_, ?_, ?_, ?_⟩
  · rcases hinv.storage with hs | ⟨hs, _, _⟩ <;> omega
  · intro key c hf hne
    exact RangeInv_pull_index hinv hf hne
  · intro key hreg
    obtain ⟨c, hf⟩ := Option.isSome_iff_exists.mp hreg
    exact pull_returns hf (RangeInv_pull_index hinv hf)
  · intro key c length hf hlen i hi1 hi2
    exact RangeInv_block_index hinv hf hlen i hi2
  · intro key length hreg hlen
    obtain ⟨c, hf⟩ := Option.isSome_iff_exists.mp hreg
    exact RangeInv_pullTail_returns hinv hf hlen
  · intro key hreg
    obtain ⟨c, hf⟩ := Option.isSome_iff_exists.mp hreg
    have hst : (b.sizeTail key).2 = b := by rw [sizeTail_of_find hf]
    show ∃ r b1, (b.sizeTail key).2.pullTail key (b.sizeTail key).1 = some (r, b1)
    rw [hst]
    exact RangeInv_pullTail_returns hinv hf (Nat.le_refl _)

/-- Witness of C18: the state reached by `wrapTwice`, where the cursor of
consumer 0 is 5 and `sizeTail(0)` is `2^64 - 1`. -/
theorem storage_bounds_witness :
    ∃ r b1, pull ({ m_size := 4, m_buffer := [14, 15, 16, 17], m_head := 0, m_tail := 1,
                    m_tails := [(0, 5)] } : RingBuffer Nat) 0 = some (r, b1) :=
  (storage_bounds
    { m_size := 4, m_buffer := [14, 15, 16, 17], m_head := 0, m_tail := 1, m_tails := [(0, 5)] }
    ⟨4, wrapTwice, _, by decide, by decide, rfl⟩).2.2.2.1 0 rfl

/-! ## C15: the distance function -/

/-- C15. For every capacity `maxSize ≥ 1` (a 64-bit value) and all `head`,
`tail` below it, `size(head, tail)` is `maxSize - tail + head` when
`head < tail` and `head - tail` otherwise; the result `d` is at most
`maxSize - 1` and satisfies `(tail + d) mod maxSize = head`. -/
theorem distance_function (b : RingBuffer T) (head tail : Nat) (_h1 : 1 ≤ b.m_size)
    (hs : b.m_size < 18446744073709551616) (hh : head < b.m_size) (ht : tail < b.m_size) :
    b.size2 head tail = (if head < tail then b.m_size - tail + head else head - tail)
    ∧ b.size2 head tail ≤ b.m_size - 1
    ∧ (tail + b.size2 head tail) % b.m_size = head := by
  have hval : b.size2 head tail
      = (if head < tail then b.m_size - tail + head else head - tail) := by
    unfold size2 u64
    split
    · omega
    · rfl
  rw [hval]
  refine ⟨rfl, ?_, ?_⟩
  · split <;> omega
  · split
    · rw [show tail + (b.m_size - tail + head) = head + b.m_size from by omega,
        Nat.add_mod_right, Nat.mod_eq_of_lt hh]
    · rw [show tail + (head - tail) = head from by omega, Nat.mod_eq_of_lt hh]

/-- Witness of C15: capacity 4, head 1, tail 3. -/
theorem distance_function_witness :
    size2 (new 4 : RingBuffer Nat) 1 3 = (if 1 < 3 then 4 - 3 + 1 else 1 - 3)
    ∧ size2 (new 4 : RingBuffer Nat) 1 3 ≤ 4 - 1
    ∧ (3 + size2 (new 4 : RingBuffer Nat) 1 3) % 4 = 1 :=
  distance_function (new 4) 1 3 (by decide) (by decide) (by decide) (by decide)

/-! ## C14: an empty registry -/

theorem updateTail_nil (b : RingBuffer T) (h : b.m_tails = []) : updateTail b = b := by
  unfold updateTail
  rw [h]
  simp [updateTailLoop]

theorem Tails.erase_only {m : Tails} {key : Nat} (h : ∀ p ∈ m, p.1 = key) :
    Tails.erase m key = [] := by
  unfold Tails.erase
  rw [List.filter_eq_nil_iff]
  intro p hp
  simp [h p hp]

/-- C14. In every state, when the registry is empty the convergence
recomputation `updateTail` changes nothing, so the converged tail stays as it
is; in particular `removeTail(id)` of the only registered consumer empties the
registry and leaves the converged tail, `head`, the capacity and every slot
unchanged: the converged tail is not advanced to `head`. -/
theorem empty_registry_keeps_tail (b : RingBuffer T) :
    (b.m_tails = [] → updateTail b = b)
    ∧ ∀ id, b.registered id = true → (∀ p ∈ b.m_tails, p.1 = id) →
        b.removeTail id = { b with m_tails := [] } := by
  refine ⟨updateTail_nil b, ?_⟩
  intro id _ honly
  unfold removeTail
  rw [Tails.erase_only honly]
  exact updateTail_nil _ rfl

/-- Witness of C14: one consumer at cursor 1 with two values behind `head`. -/
theorem empty_registry_keeps_tail_witness :
    removeTail ({ m_size := 4, m_buffer := [10, 11, 12], m_head := 3, m_tail := 1,
                  m_tails := [(0, 1)] } : RingBuffer Nat) 0
      = { m_size := 4, m_buffer := [10, 11, 12], m_head := 3, m_tail := 1, m_tails := [] } :=
  (empty_registry_keeps_tail
    { m_size := 4, m_buffer := [10, 11, 12], m_head := 3, m_tail := 1, m_tails := [(0, 1)] }).2
    0 rfl (by decide)

/-! ## C12: registering a consumer -/

theorem addTailLoop_none {m : Tails} {fuel i : Nat} (h : addTailLoop m fuel i = none) :
    ∀ j, i ≤ j → j < i + fuel → (Tails.find m j).isSome = true := by
  induction fuel generalizing i with
  | zero => intro j h1 h2; omega
  | succ fuel ih =>
    unfold addTailLoop at h
    split at h
    · exact absurd h (by simp)
    · next c hc =>
      intro j h1 h2
      by_cases hj : j = i
      · rw [hj, hc]; rfl
      · exact ih h j (by omega) (by omega)

theorem addTailLoop_some {m : Tails} {fuel i r : Nat} (h : addTailLoop m fuel i = some r) :
    i ≤ r ∧ ∀ j, i ≤ j → j < r → (Tails.find m j).isSome = true := by
  induction fuel generalizing i with
  | zero => simp [addTailLoop] at h
  | succ fuel ih =>
    unfold addTailLoop at h
    split at h
    · simp only [Option.some.injEq] at h
      subst h
      exact ⟨Nat.le_refl _, fun j h1 h2 => by omega⟩
    · next c hc =>
      obtain ⟨h1, h2⟩ := ih h
      refine ⟨by omega, fun j h3 h4 => ?_⟩
      by_cases hj : j = i
      · rw [hj, hc]; rfl
      · exact h2 j (by omega) h4

theorem count_of_registered (m : Tails) (n : Nat)
    (h : ∀ j, j < n → (Tails.find m j).isSome = true) :
    n ≤ (m.map Prod.fst).dedup.length := by
  have hsub : Finset.range n ⊆ (m.map Prod.fst).toFinset := by
    intro j hj
    obtain ⟨c, hc⟩ := Option.isSome_iff_exists.mp (h j (Finset.mem_range.mp hj))
    rw [List.mem_toFinset]
    exact List.mem_map.mpr ⟨(j, c), Tails.mem_of_find hc, rfl⟩
  have hcard := Finset.card_le_card hsub
  rw [Finset.card_range, List.card_toFinset] at hcard
  exact hcard

theorem addTail_returns (b : RingBuffer T) : ∃ i b1, b.addTail = some (i, b1) := by
  unfold addTail
  split
  · next hnone =>
    have h1 := count_of_registered b.m_tails (b.m_tails.length + 1)
      (fun j hj => addTailLoop_none hnone j (by omega) (by omega))
    have h2 := (List.dedup_sublist (b.m_tails.map Prod.fst)).length_le
    rw [List.length_map] at h2
    omega
  · exact ⟨_, _, rfl⟩

/-- C12. In every state `addTail()` returns: its result `i` is the smallest
natural number that is not a key of the registry (every smaller number is
registered, so a freed identifier is reused and `i` is at most the number of
registered consumers); the new entry's cursor is the converged tail, so
`sizeTail(i)` is the distance `size(head, converged tail)` that `size()`
reports: `sizeTail(i) = size()` whenever `head` and the converged tail are
below the capacity (an `unsigned int`), hence in every reachable state, `size()`
being that distance as an `unsigned int`; the capacity, `head`, the converged
tail, the slots and every other cursor are unchanged. -/
theorem addTail_postcondition (b : RingBuffer T) :
    ∃ i b1, b.addTail = some (i, b1)
      ∧ Tails.find b.m_tails i = none
      ∧ (∀ j, j < i → b.registered j = true)
      ∧ i ≤ b.registeredCount
      ∧ Tails.find b1.m_tails i = some b.m_tail
      ∧ (b1.sizeTail i).1 = b1.size2 b1.m_head b1.m_tail
      ∧ b1.size = (b1.sizeTail i).1 % 4294967296
      ∧ ((b1.sizeTail i).1 < 4294967296 → (b1.sizeTail i).1 = b1.size)
      ∧ (b.m_head < b.m_size → b.m_tail < b.m_size → b.m_size < 4294967296 →
          (b1.sizeTail i).1 = b1.size)
      ∧ (Reachable b → (b1.sizeTail i).1 = b1.size)
      ∧ b1.m_size = b.m_size ∧ b1.m_head = b.m_head ∧ b1.m_tail = b.m_tail
      ∧ b1.m_buffer = b.m_buffer
      ∧ ∀ k, k ≠ i → Tails.find b1.m_tails k = Tails.find b.m_tails k := by
  obtain ⟨i, b1, hadd⟩ := addTail_returns b
  obtain ⟨hb1, hnone⟩ := addTail_eq hadd
  have hmin : ∀ j, j < i → b.registered j = true := by
    unfold addTail at hadd
    split at hadd
    · exact absurd hadd (by simp)
    · next r hloop =>
      simp only [Option.some.injEq, Prod.mk.injEq] at hadd
      intro j hj
      rw [← hadd.1] at hj
      exact (addTailLoop_some hloop).2 j (Nat.zero_le _) hj
  have hfind : Tails.find b1.m_tails i = some b.m_tail := by
    rw [hb1]
    exact Tails.find_store_self _ _ _
  have hst : (b1.sizeTail i).1 = b1.size2 b1.m_head b1.m_tail := by
    rw [sizeTail_of_find hfind, hb1]
  have hsz : b1.size = (b1.sizeTail i).1 % 4294967296 := by
    rw [hst]
    rfl
  have hlt : (b1.sizeTail i).1 < 4294967296 → (b1.sizeTail i).1 = b1.size := by
    intro h
    rw [hsz, Nat.mod_eq_of_lt h]
  have hrange : b.m_head < b.m_size → b.m_tail < b.m_size → b.m_size < 4294967296 →
      (b1.sizeTail i).1 = b1.size := by
    intro hh ht hs
    apply hlt
    rw [hst, hb1]
    show b.size2 b.m_head b.m_tail < 4294967296
    rw [size2_eq_dist b hh ht hs]
    have := dist_lt hh ht
    omega
  refine ⟨i, b1, hadd, hnone, hmin, count_of_registered b.m_tails i hmin, hfind, hst, hsz,
    hlt, hrange, ?_, by rw [hb1], by rw [hb1], by rw [hb1], by rw [hb1], ?_⟩
  · intro hreach
    have hinv := RangeInv_of_reachable hreach
    exact hrange hinv.head_lt hinv.tail_lt hinv.size_lt
  · intro k hk
    rw [hb1]
    exact Tails.find_store_ne _ _ _ _ hk

/-- Witness of C12: identifier 1 was freed between the consumers 0 and 2. -/
theorem addTail_postcondition_witness :
    addTail ({ m_size := 4, m_buffer := [10, 11], m_head := 2, m_tail := 1,
               m_tails := [(0, 1), (2, 2)] } : RingBuffer Nat)
      = some (1, { m_size := 4, m_buffer := [10, 11], m_head := 2, m_tail := 1,
                   m_tails := [(0, 1), (1, 1), (2, 2)] })
    ∧ ∃ i b1, addTail ({ m_size := 4, m_buffer := [10, 11], m_head := 2, m_tail := 1,
                         m_tails := [(0, 1), (2, 2)] } : RingBuffer Nat) = some (i, b1)
        ∧ (b1.sizeTail i).1 = b1.size :=
  ⟨rfl, by
    obtain ⟨i, b1, h1, _, _, _, _, _, _, _, h2, _⟩ := addTail_postcondition
      ({ m_size := 4, m_buffer := [10, 11], m_head := 2, m_tail := 1,
         m_tails := [(0, 1), (2, 2)] } : RingBuffer Nat)
    exact ⟨i, b1, h1, h2 (by decide) (by decide) (by decide)⟩⟩

/-! ## C13: removing a consumer -/

theorem updateTailLoop_none {size tail : Nat} {l : Tails} {init : Nat}
    (h : updateTailLoop size tail l init = none) : ∃ p ∈ l, p.2 = tail := by
  induction l generalizing init with
  | nil => simp [updateTailLoop] at h
  | cons q rest ih =>
    obtain ⟨k, c⟩ := q
    unfold updateTailLoop at h
    split at h
    · next heq => exact ⟨(k, c), List.mem_cons_self _ _, heq⟩
    · obtain ⟨p, hp, hpt⟩ := ih h
      exact ⟨p, List.mem_cons_of_mem _ hp, hpt⟩

theorem updateTail_mem (b : RingBuffer T) (hs : b.m_size < 4294967296)
    (hc : ∀ p ∈ b.m_tails, p.2 < b.m_size) (hne : b.m_tails ≠ []) :
    ∃ p ∈ b.m_tails, (updateTail b).m_tail = p.2 := by
  have hinit : u64 (2 * b.m_size) = 2 * b.m_size := u64_of_lt (by omega)
  unfold updateTail
  split
  · next hloop =>
    obtain ⟨p, hp, hpt⟩ := updateTailLoop_none hloop
    exact ⟨p, hp, hpt.symm⟩
  · next cur hloop =>
    obtain ⟨h1, _, h3⟩ := updateTailLoop_some hloop
    obtain ⟨p0, hp0⟩ := List.exists_mem_of_ne_nil _ hne
    have hlt : cur < 2 * b.m_size := by
      have h4 := (h3 p0 hp0).2
      have h5 := hc p0 hp0
      rw [u64_of_lt (by omega)] at h4
      split at h4 <;> omega
    rw [hinit] at h1 ⊢
    rw [if_neg (by omega)]
    rcases h1 with h1 | ⟨p, hp, h1⟩
    · omega
    · refine ⟨p, hp, ?_⟩
      have hpm := hc p hp
      rw [u64_of_lt (by omega)] at h1
      simp only
      rw [h1]
      by_cases hpt : p.2 < b.m_tail
      · simp only [hpt, if_true]
        rw [if_pos (by omega), Nat.add_mod_right, Nat.mod_eq_of_lt hpm]
      · simp only [hpt, if_false]
        rw [if_neg (by omega)]

theorem single_run_invariants {n : Nat} {ops : List (Op T)} {b : RingBuffer T}
    {es : List (Event T)} (h1 : 1 ≤ n) (h2 : n < 4294967296)
    (hs : ∀ op ∈ ops, op.isSingle = true) (hr : run (new n) ops = some (b, es)) :
    HistInv b (pushedValues es) ∧ RangeInv b := by
  refine ⟨?_, RangeInv_run (RangeInv_new n h1 h2) hr⟩
  simpa using HistInv_run (HistInv_new n h1 h2) hs hr

/-- C13. Let `s` be a state reached from a fresh buffer by `push`, `addTail`,
`removeTail` and single-item `pull` calls in which `id` and at least one other
consumer are registered. After `removeTail(id)` (of any such `id`, in
particular of one with the largest `sizeTail`) the converged tail is the
cursor of a remaining consumer whose `sizeTail` equals `size()`, no remaining
consumer has a larger `sizeTail`, `id` is no longer registered, and `head`, the
capacity, the slots and the remaining cursors are unchanged. -/
theorem removeTail_converges (n : Nat) (h1 : 1 ≤ n) (h2 : n < 4294967296)
    (ops : List (Op T)) (hsingle : ∀ op ∈ ops, op.isSingle = true)
    (s : RingBuffer T) (es : List (Event T)) (hrun : run (new n) ops = some (s, es))
    (id other : Nat) (_hid : s.registered id = true) (hother : s.registered other = true)
    (hne : other ≠ id)
    (_hslow : ∀ j, s.registered j = true → (s.sizeTail j).1 ≤ (s.sizeTail id).1) :
    (∃ j c, Tails.find (s.removeTail id).m_tails j = some c
        ∧ (s.removeTail id).m_tail = c
        ∧ ((s.removeTail id).sizeTail j).1 = (s.removeTail id).size)
    ∧ (∀ j, (s.removeTail id).registered j = true →
        ((s.removeTail id).sizeTail j).1 ≤ (s.removeTail id).size)
    ∧ (s.removeTail id).registered id = false
    ∧ (∀ j, j ≠ id → Tails.find (s.removeTail id).m_tails j = Tails.find s.m_tails j)
    ∧ (s.removeTail id).m_head = s.m_head
    ∧ (s.removeTail id).m_size = s.m_size
    ∧ (s.removeTail id).m_buffer = s.m_buffer := by
  obtain ⟨hinv, hrange⟩ := single_run_invariants h1 h2 hsingle hrun
  have hinv1 := HistInv_removeTail hinv id
  have htails : (s.removeTail id).m_tails = Tails.erase s.m_tails id := by
    unfold removeTail
    simp
  have hwf : Tails.WF (s.removeTail id).m_tails := by
    rw [htails]
    exact Tails.WF_erase hrange.keys id
  have hsz := size_eq_dist hinv1
  refine ⟨?_, ?_, ?_, ?_, (removeTail_frame s id).2.2, (removeTail_frame s id).1,
    (removeTail_frame s id).2.1⟩
  · obtain ⟨co, hco⟩ := Option.isSome_iff_exists.mp hother
    have hmem : (other, co) ∈ Tails.erase s.m_tails id := by
      apply Tails.mem_of_find
      rw [Tails.find_erase_ne _ _ _ hne]
      exact hco
    obtain ⟨p, hp, hpt⟩ := updateTail_mem { s with m_tails := Tails.erase s.m_tails id }
      hinv.size_lt (fun q hq => (hinv.cursors q (Tails.mem_erase hq)).1)
      (List.ne_nil_of_mem hmem)
    have hfind : Tails.find (s.removeTail id).m_tails p.1 = some p.2 := by
      rw [htails]
      exact Tails.find_of_mem (Tails.WF_erase hrange.keys id) hp
    have htail : (s.removeTail id).m_tail = p.2 := hpt
    refine ⟨p.1, p.2, hfind, htail, ?_⟩
    rw [(HistInv_cursor hinv1 hfind).2.2.1, hsz, htail]
  · intro j hj
    obtain ⟨c, hc⟩ := Option.isSome_iff_exists.mp hj
    rw [(HistInv_cursor hinv1 hc).2.2.1, hsz]
    exact (hinv1.cursors (j, c) (Tails.mem_of_find hc)).2
  · unfold registered
    rw [htails, Tails.find_erase_self]
    rfl
  · intro j hj
    rw [htails]
    exact Tails.find_erase_ne _ _ _ hj

/-- Witness of C13: consumers 0 and 1 on a buffer of capacity 4; consumer 1 has
pulled one of two values, and the slower consumer 0 is removed. -/
theorem removeTail_converges_witness :
    removeTail ({ m_size := 4, m_buffer := [10, 11], m_head := 2, m_tail := 0,
                  m_tails := [(0, 0), (1, 1)] } : RingBuffer Nat) 0
      = { m_size := 4, m_buffer := [10, 11], m_head := 2, m_tail := 1, m_tails := [(1, 1)] }
    ∧ ∃ j c, Tails.find (removeTail ({ m_size := 4, m_buffer := [10, 11], m_head := 2,
                                       m_tail := 0, m_tails := [(0, 0), (1, 1)] } :
                            RingBuffer Nat) 0).m_tails j = some c
        ∧ (removeTail ({ m_size := 4, m_buffer := [10, 11], m_head := 2, m_tail := 0,
                         m_tails := [(0, 0), (1, 1)] } : RingBuffer Nat) 0).m_tail = c
        ∧ ((removeTail ({ m_size := 4, m_buffer := [10, 11], m_head := 2, m_tail := 0,
                          m_tails := [(0, 0), (1, 1)] } : RingBuffer Nat) 0).sizeTail j).1
            = (removeTail ({ m_size := 4, m_buffer := [10, 11], m_head := 2, m_tail := 0,
                             m_tails := [(0, 0), (1, 1)] } : RingBuffer Nat) 0).size :=
  ⟨rfl, (removeTail_converges 4 (by decide) (by decide)
    [.addTail, .addTail, .push 10, .push 11, .pull 1] (by decide)
    { m_size := 4, m_buffer := [10, 11], m_head := 2, m_tail := 0, m_tails := [(0, 0), (1, 1)] }
    [.added 0, .added 1, .pushed 10 true, .pushed 11 true, .pulled 1 (some 10)] rfl
    0 1 rfl rfl (by decide)
    (fun j hj => match j, hj with
      | 0, _ => by decide
      | 1, _ => by decide
      | j + 2, hj => absurd hj (by simp [registered, Tails.find, List.lookup]))).1⟩

/-! ## C17 and C19: the bulk pull -/

/-- C17 (counterexample). In the state reached by `wrapTwice` (capacity 4, all
four slots populated, consumer 0 registered with cursor 5, `head = 0`),
`sizeTail(0)` is `2^64 - 1`; `pullTail(0, 2^64 - 1)` computes
`newTail = (5 + 2^64 - 1) mod 2^64 = 4`, returns no element at all and sets the
cursor to 4. -/
theorem pullTail_wraps_at_uint64 :
    (run (new 4) wrapTwice).map Prod.fst
      = some { m_size := 4, m_buffer := [14, 15, 16, 17], m_head := 0, m_tail := 1,
               m_tails := [(0, 5)] }
    ∧ (sizeTail ({ m_size := 4, m_buffer := [14, 15, 16, 17], m_head := 0, m_tail := 1,
                   m_tails := [(0, 5)] } : RingBuffer Nat) 0).1 = 18446744073709551615
    ∧ (pullTail ({ m_size := 4, m_buffer := [14, 15, 16, 17], m_head := 0, m_tail := 1,
                   m_tails := [(0, 5)] } : RingBuffer Nat) 0 18446744073709551615).map
          (fun r => (r.1, Tails.find r.2.m_tails 0))
        = some ([], some 4) := by
  refine ⟨rfl, rfl, rfl⟩

/-- C17 (amended). In every state in which consumer `id` is registered with
cursor `c` and the slots of the requested range are populated, for every
`length ≤ sizeTail(id)` such that `c + length` does not exceed the 64-bit
range, `pullTail(id, length)` returns exactly `length` elements, the `i`-th
being the slot at index `(c + i) mod maxSize`, and sets the cursor of `id` to
`c + length`, not reduced modulo `maxSize`; `head`, the capacity, the slots and
the cursors of the other consumers are unchanged. -/
theorem pullTail_result (b : RingBuffer T) (id c length : Nat)
    (hf : Tails.find b.m_tails id = some c)
    (hpop : ∀ i, i < length → (c + i) % b.m_size < b.m_buffer.length)
    (_hlen : length ≤ (b.sizeTail id).1)
    (hno : c + length < 18446744073709551616) :
    ∃ r b1, b.pullTail id length = some (r, b1)
      ∧ r.length = length
      ∧ (∀ i, i < length → r[i]? = b.m_buffer[(c + i) % b.m_size]?)
      ∧ Tails.find b1.m_tails id = some (c + length)
      ∧ b1.m_head = b.m_head ∧ b1.m_size = b.m_size ∧ b1.m_buffer = b.m_buffer
      ∧ ∀ k, k ≠ id → Tails.find b1.m_tails k = Tails.find b.m_tails k := by
  have hu : u64 (c + length) = c + length := u64_of_lt hno
  obtain ⟨r, hr, hlen, hel⟩ := pullBlockLoop_spec b length c hpop
  have hblock : b.pullBlock c (u64 (c + length)) = some r := by
    unfold pullBlock
    rw [hu, Nat.add_sub_cancel_left]
    exact hr
  refine ⟨r, _, pullTail_of_block hf hblock, hlen, hel, ?_, by simp, by simp, by simp, ?_⟩
  · simp only [updateTail_m_tails, hu]
    exact Tails.find_store_self _ _ _
  · intro k hk
    simp only [updateTail_m_tails]
    exact Tails.find_store_ne _ _ _ _ hk

/-- Witness of C17: a bulk pull of three values across the end of the ring. -/
theorem pullTail_result_witness :
    ∃ r b1,
      pullTail ({ m_size := 4, m_buffer := [10, 11, 12, 13], m_head := 0, m_tail := 1,
                  m_tails := [(0, 1)] } : RingBuffer Nat) 0 3 = some (r, b1)
      ∧ r.length = 3
      ∧ (∀ i, i < 3 → r[i]? = [10, 11, 12, 13][(1 + i) % 4]?)
      ∧ Tails.find b1.m_tails 0 = some (1 + 3)
      ∧ b1.m_head = 0 ∧ b1.m_size = 4 ∧ b1.m_buffer = [10, 11, 12, 13]
      ∧ ∀ k, k ≠ 0 → Tails.find b1.m_tails k = Tails.find [(0, 1)] k :=
  pullTail_result
    { m_size := 4, m_buffer := [10, 11, 12, 13], m_head := 0, m_tail := 1, m_tails := [(0, 1)] }
    0 1 3 rfl (fun i _ => Nat.mod_lt _ (by decide)) (by decide) (by decide)

theorem advance_arith (m h c len : Nat) (hm : m < 4294967296) (hh : h < m) (hc : c < m)
    (hle : len ≤ dist m h c) :
    (if h < (c + len) % 18446744073709551616
      then ((m + (18446744073709551616 - (c + len) % 18446744073709551616))
              % 18446744073709551616 + h) % 18446744073709551616
      else h - (c + len) % 18446744073709551616)
      = dist m h c - len := by
  unfold dist at *
  have hno : (c + len) % 18446744073709551616 = c + len := by
    apply Nat.mod_eq_of_lt
    split at hle <;> omega
  rw [hno]
  by_cases h1 : h < c
  · rw [if_pos h1] at hle ⊢
    rw [if_pos (by omega)]
    omega
  · rw [if_neg h1] at hle ⊢
    rw [if_neg (by omega)]
    omega

/-- C19. In every state with `head < maxSize` (the capacity being an
`unsigned int`) in which consumer `id` is registered with a cursor below
`maxSize`, and for every `length ≤ sizeTail(id)`: after `pullTail(id, length)`
the value of `sizeTail(id)` is the previous one minus `length`, and after the
drain-all `pullTail(id)` it is 0. Both calls return whenever the slots of the
requested range are populated. -/
theorem pullTail_consumes (b : RingBuffer T) (id c length : Nat)
    (hs : b.m_size < 4294967296) (hh : b.m_head < b.m_size)
    (hf : Tails.find b.m_tails id = some c) (hc : c < b.m_size)
    (hlen : length ≤ (b.sizeTail id).1) :
    (∀ r b1, b.pullTail id length = some (r, b1) →
        (b1.sizeTail id).1 = (b.sizeTail id).1 - length)
    ∧ (∀ r b1, b.pullTailAll id = some (r, b1) → (b1.sizeTail id).1 = 0)
    ∧ ((∀ i, i < length → (c + i) % b.m_size < b.m_buffer.length) →
        ∃ r b1, b.pullTail id length = some (r, b1))
    ∧ ((∀ i, i < (b.sizeTail id).1 → (c + i) % b.m_size < b.m_buffer.length) →
        ∃ r b1, b.pullTailAll id = some (r, b1)) := by
  have hst := sizeTail_of_find hf
  have key : ∀ len, len ≤ b.size2 b.m_head c → ∀ r b1,
      b.pullTail id len = some (r, b1) →
      (b1.sizeTail id).1 = b.size2 b.m_head c - len := by
    intro len hle r b1 hp
    obtain ⟨_, hb1⟩ := pullTail_cases hf hp
    have hf1 : Tails.find b1.m_tails id = some (u64 (c + len)) := by
      rw [hb1]
      simp only [updateTail_m_tails]
      exact Tails.find_store_self _ _ _
    rw [sizeTail_of_find hf1, hb1]
    rw [size2_eq_dist b hh hc hs] at hle ⊢
    simp only [size2, updateTail_m_size, updateTail_m_head, u64]
    exact advance_arith b.m_size b.m_head c len hs hh hc hle
  have hret : ∀ len, len ≤ b.size2 b.m_head c →
      (∀ i, i < len → (c + i) % b.m_size < b.m_buffer.length) →
      ∃ r b1, b.pullTail id len = some (r, b1) := by
    intro len hle hpop
    have hno : c + len < 18446744073709551616 := by
      rw [size2_eq_dist b hh hc hs] at hle
      have := dist_lt hh hc
      omega
    obtain ⟨r, hr, _, _⟩ := pullBlockLoop_spec b len c hpop
    refine ⟨r, _, pullTail_of_block hf ?_⟩
    unfold pullBlock
    rw [u64_of_lt hno, Nat.add_sub_cancel_left]
    exact hr
  rw [hst] at hlen ⊢
  simp only at hlen ⊢
  refine ⟨key length hlen, ?_, hret length hlen, ?_⟩
  · intro r b1 hp
    unfold pullTailAll at hp
    rw [hst] at hp
    rw [key _ (Nat.le_refl _) r b1 hp, Nat.sub_self]
  · intro hpop
    show ∃ r b1, (b.sizeTail id).2.pullTail id (b.sizeTail id).1 = some (r, b1)
    rw [hst]
    exact hret _ (Nat.le_refl _) hpop

/-- Witness of C19: draining two of three available values, and all three. -/
theorem pullTail_consumes_witness :
    (sizeTail ({ m_size := 4, m_buffer := [10, 11, 12, 13], m_head := 0, m_tail := 1,
                 m_tails := [(0, 1)] } : RingBuffer Nat) 0).1 = 3
    ∧ (∀ r b1,
        pullTail ({ m_size := 4, m_buffer := [10, 11, 12, 13], m_head := 0, m_tail := 1,
                    m_tails := [(0, 1)] } : RingBuffer Nat) 0 2 = some (r, b1) →
        (b1.sizeTail 0).1 = 3 - 2)
    ∧ ∃ r b1,
        pullTail ({ m_size := 4, m_buffer := [10, 11, 12, 13], m_head := 0, m_tail := 1,
                    m_tails := [(0, 1)] } : RingBuffer Nat) 0 2 = some (r, b1) :=
  ⟨rfl,
   (pullTail_consumes
      { m_size := 4, m_buffer := [10, 11, 12, 13], m_head := 0, m_tail := 1,
        m_tails := [(0, 1)] }
      0 1 2 (by decide) (by decide) rfl (by decide) (by decide)).1,
   ⟨_, _, rfl⟩⟩

/-! ## C11: emptiness after a bulk pull -/

/-- C11 (evaluation). After the scenario of the specification at capacity 4,
consumer 0 is registered with cursor 4 and `head` is 0: `sizeTail(0)` is 0, yet
`pull(0)` returns the value 10 with `ok = true`, a value this consumer had
already received. -/
theorem stale_pull_after_pullTail :
    (run (new 4) specScenario).map
        (fun r => (r.1.registered 0, received 0 r.2, (r.1.sizeTail 0).1,
          (r.1.pull 0).map Prod.fst))
      = some (true, [10, 11, 12, 13], 0, some (some 10)) := by
  rfl
